import Mathlib

/-!
Verification of the deepagents filesystem / eviction / skills / memory layer.

JavaScript strings are modelled as `List Char` (`Str`); JavaScript plain
objects and `Map`s are modelled as association lists with the same
insert / overwrite / delete semantics; `undefined`-able parameters are
modelled as `Option`.
-/

set_option maxRecDepth 4000

/-- A JavaScript string, modelled as its list of characters. -/
abbrev Str := List Char

namespace DeepAgents

/-- Model of JavaScript `s.split("\n")`: the list of newline-free segments.
`split` of the empty string is `[""]`, matching JS. -/
def splitNl : Str → List Str
  | [] => [[]]
  | c :: rest =>
    if c = '\n' then [] :: splitNl rest
    else
      match splitNl rest with
      | [] => [[c]]
      | s :: ss => (c :: s) :: ss

/-- Model of JavaScript `parts.join("\n")`. -/
def joinNl : List Str → Str
  | [] => []
  | [p] => p
  | p :: q :: ps => p ++ '\n' :: joinNl (q :: ps)

theorem splitNl_ne_nil (s : Str) : splitNl s ≠ [] := by
  induction s with
  | nil => simp [splitNl]
  | cons c rest ih =>
    simp only [splitNl]
    split
    · simp
    · cases h : splitNl rest with
      | nil => simp
      | cons s ss => simp

theorem joinNl_splitNl (s : Str) : joinNl (splitNl s) = s := by
  induction s with
  | nil => simp [splitNl, joinNl]
  | cons c rest ih =>
    simp only [splitNl]
    split
    · rename_i hc
      subst hc
      cases h : splitNl rest with
      | nil => exact absurd h (splitNl_ne_nil rest)
      | cons s ss =>
        rw [h] at ih
        simp [joinNl, ih]
    · cases h : splitNl rest with
      | nil => exact absurd h (splitNl_ne_nil rest)
      | cons s ss =>
        rw [h] at ih
        cases ss with
        | nil => simpa [joinNl] using ih
        | cons t ts => simpa [joinNl] using ih

theorem splitNl_of_no_newline (as : Str) (h : '\n' ∉ as) : splitNl as = [as] := by
  induction as with
  | nil => simp [splitNl]
  | cons a rest ih =>
    have ha : ¬ a = '\n' := fun hh => h (hh ▸ List.mem_cons_self _ _)
    have hrest : '\n' ∉ rest := fun hh => h (List.mem_cons_of_mem _ hh)
    simp only [splitNl, if_neg ha, ih hrest]

theorem splitNl_append_newline (as t : Str) (h : '\n' ∉ as) :
    splitNl (as ++ '\n' :: t) = as :: splitNl t := by
  induction as with
  | nil => simp [splitNl]
  | cons a rest ih =>
    have ha : ¬ a = '\n' := fun hh => h (hh ▸ List.mem_cons_self _ _)
    have hrest : '\n' ∉ rest := fun hh => h (List.mem_cons_of_mem _ hh)
    simp only [List.cons_append, splitNl, if_neg ha]
    rw [show rest.append ('\n' :: t) = rest ++ '\n' :: t from rfl, ih hrest]

theorem mem_splitNl_no_newline (s : Str) : ∀ p ∈ splitNl s, '\n' ∉ p := by
  induction s with
  | nil => simp [splitNl]
  | cons c rest ih =>
    simp only [splitNl]
    split
    · intro p hp
      rcases List.mem_cons.mp hp with h | h
      · simp [h]
      · exact ih p h
    · rename_i hc
      cases h : splitNl rest with
      | nil => exact absurd h (splitNl_ne_nil rest)
      | cons s ss =>
        intro p hp
        rcases List.mem_cons.mp hp with h' | h'
        · subst h'
          intro hmem
          rcases List.mem_cons.mp hmem with h'' | h''
          · exact hc h''.symm
          · exact ih s (by rw [h]; exact List.mem_cons_self _ _) h''
        · exact ih p (by rw [h]; exact List.mem_cons_of_mem _ h')

theorem splitNl_joinNl (ps : List Str) (hne : ps ≠ [])
    (hnl : ∀ p ∈ ps, '\n' ∉ p) : splitNl (joinNl ps) = ps := by
  induction ps with
  | nil => exact absurd rfl hne
  | cons p qs ih =>
    cases qs with
    | nil => simp [joinNl, splitNl_of_no_newline p (hnl p (List.mem_cons_self _ _))]
    | cons q rs =>
      have hqs : splitNl (joinNl (q :: rs)) = q :: rs :=
        ih (by simp) (fun x hx => hnl x (List.mem_cons_of_mem _ hx))
      simp only [joinNl]
      rw [splitNl_append_newline p _ (hnl p (List.mem_cons_self _ _)), hqs]

theorem splitNl_length_le (s : Str) : (splitNl s).length ≤ s.length + 1 := by
  induction s with
  | nil => simp [splitNl]
  | cons c rest ih =>
    simp only [splitNl]
    split
    · simpa using Nat.succ_le_succ ih
    · cases h : splitNl rest with
      | nil => simp
      | cons s ss =>
        rw [h] at ih
        simpa using Nat.le_succ_of_le ih

/-- Number of lines of a JS string: the empty string has zero lines, any other
string has one line per newline-separated segment. -/
def numLines (s : Str) : Nat :=
  if s = [] then 0 else (splitNl s).length

theorem joinNl_length_le (ps : List Str) (b : Nat)
    (h : ∀ p ∈ ps, p.length ≤ b) : (joinNl ps).length ≤ ps.length * (b + 1) := by
  induction ps with
  | nil => simp [joinNl]
  | cons p qs ih =>
    cases qs with
    | nil =>
      have hp := h p (List.mem_cons_self _ _)
      simp only [joinNl, List.length_cons, List.length_nil, Nat.one_mul]
      omega
    | cons q rs =>
      have hp := h p (List.mem_cons_self _ _)
      have hrest := ih (fun x hx => h x (List.mem_cons_of_mem _ hx))
      simp only [joinNl, List.length_append, List.length_cons, Nat.succ_mul] at *
      omega

/-- Model of JavaScript number-to-string conversion (template-literal
interpolation of a nonnegative integer): standard decimal rendering. -/
def natToChars (n : Nat) : Str :=
  if _h : n < 10 then [Nat.digitChar n]
  else natToChars (n / 10) ++ [Nat.digitChar (n % 10)]
  decreasing_by exact Nat.div_lt_self (by omega) (by omega)

theorem natToChars_len_pos (n : Nat) : 1 ≤ (natToChars n).length := by
  rw [natToChars]
  split
  · simp
  · simp

theorem natToChars_lt_ten (n : Nat) (h : n < 10) : natToChars n = [Nat.digitChar n] := by
  rw [natToChars, dif_pos h]

theorem natToChars_len_le (n k : Nat) (hk : 1 ≤ k) (h : n < 10 ^ k) :
    (natToChars n).length ≤ k := by
  induction n using Nat.strong_induction_on generalizing k with
  | _ n ih =>
    rw [natToChars]
    split
    · simpa using hk
    · rename_i hn
      push_neg at hn
      have hk2 : 2 ≤ k := by
        by_contra hlt
        interval_cases k
        omega
      have hdiv : n / 10 < 10 ^ (k - 1) := by
        have : n < 10 ^ (k - 1) * 10 := by
          have : 10 ^ (k - 1) * 10 = 10 ^ k := by
            conv_rhs => rw [show k = (k - 1) + 1 by omega]
            rw [Nat.pow_succ]
          omega
        omega
      have := ih (n / 10) (Nat.div_lt_self (by omega) (by omega)) (k - 1) (by omega) hdiv
      simp only [List.length_append, List.length_cons, List.length_nil]
      omega

theorem pow_le_of_natToChars_len (n : Nat) (hn : 1 ≤ n) :
    10 ^ ((natToChars n).length - 1) ≤ n := by
  induction n using Nat.strong_induction_on with
  | _ n ih =>
    rw [natToChars]
    split
    · simpa using hn
    · rename_i h10
      push_neg at h10
      have hdivpos : 1 ≤ n / 10 := Nat.one_le_div_iff (by omega) |>.mpr h10
      have hrec := ih (n / 10) (Nat.div_lt_self (by omega) (by omega)) hdivpos
      simp only [List.length_append, List.length_cons, List.length_nil]
      have hlen := natToChars_len_pos (n / 10)
      have : 10 ^ ((natToChars (n / 10)).length + 1 - 1)
          = 10 ^ ((natToChars (n / 10)).length - 1) * 10 := by
        rw [← Nat.pow_succ]
        congr 1
        omega
      rw [this]
      calc 10 ^ ((natToChars (n / 10)).length - 1) * 10 ≤ (n / 10) * 10 :=
            Nat.mul_le_mul_right 10 hrec
        _ ≤ n := by omega

theorem natToChars_len_mono {m n : Nat} (h : m ≤ n) :
    (natToChars m).length ≤ (natToChars n).length := by
  induction n using Nat.strong_induction_on generalizing m with
  | _ n ih =>
    by_cases hn : n < 10
    · rw [natToChars_lt_ten m (by omega), natToChars_lt_ten n hn]
      simp
    · push_neg at hn
      by_cases hm : m < 10
      · rw [natToChars_lt_ten m hm]
        have := natToChars_len_pos n
        simpa using this
      · push_neg at hm
        conv_lhs => rw [natToChars, dif_neg (by omega)]
        conv_rhs => rw [natToChars, dif_neg (by omega)]
        simp only [List.length_append, List.length_cons, List.length_nil]
        have := ih (n / 10) (Nat.div_lt_self (by omega) (by omega))
          (Nat.div_le_div_right h)
        omega

theorem no_newline_natToChars (n : Nat) : '\n' ∉ natToChars n := by
  induction n using Nat.strong_induction_on with
  | _ n ih =>
    have hdigit : ∀ d, d < 10 → Nat.digitChar d ≠ '\n' := by decide
    rw [natToChars]
    split
    · rename_i h
      simp only [List.mem_singleton]
      intro hh
      exact hdigit n h hh.symm
    · rename_i h
      intro hmem
      rcases List.mem_append.mp hmem with h' | h'
      · exact ih (n / 10) (Nat.div_lt_self (by omega) (by omega)) h'
      · have := hdigit (n % 10) (Nat.mod_lt _ (by omega))
        simp at h'
        exact this h'.symm

/-! ### Association-list model of JavaScript objects and Maps

A JS object / `Map` is an insertion-ordered list of key–value pairs with
unique keys.  Property read is `lookupKey`, property write is `setKey`
(overwrite in place, else append, as JS does), `delete` is `eraseKey`. -/

/-- First value stored under key `k` (JS property read). -/
def lookupKey {α : Type} : List (Str × α) → Str → Option α
  | [], _ => none
  | (k', v) :: rest, k => if k' = k then some v else lookupKey rest k

/-- JS property write / `Map.set`: overwrite in place if the key exists,
otherwise append at the end. -/
def setKey {α : Type} : List (Str × α) → Str → α → List (Str × α)
  | [], k, v => [(k, v)]
  | (k', v') :: rest, k, v =>
    if k' = k then (k, v) :: rest else (k', v') :: setKey rest k v

/-- JS `delete obj[k]`: remove every entry stored under `k`. -/
def eraseKey {α : Type} : List (Str × α) → Str → List (Str × α)
  | [], _ => []
  | (k', v) :: rest, k =>
    if k' = k then eraseKey rest k else (k', v) :: eraseKey rest k

/-- The keys of an association list, in order. -/
def keysOf {α : Type} (m : List (Str × α)) : List Str := m.map Prod.fst

theorem keysOf_cons {α : Type} (e : Str × α) (rest : List (Str × α)) :
    keysOf (e :: rest) = e.1 :: keysOf rest := rfl

theorem keysOf_append {α : Type} (m₁ m₂ : List (Str × α)) :
    keysOf (m₁ ++ m₂) = keysOf m₁ ++ keysOf m₂ := List.map_append _ _ _

theorem not_mem_keysOf_cons {α : Type} {k : Str} {e : Str × α} {rest : List (Str × α)}
    (h : k ∉ keysOf (e :: rest)) : ¬ e.1 = k ∧ k ∉ keysOf rest := by
  rw [keysOf_cons] at h
  constructor
  · intro hh
    exact h (hh ▸ List.mem_cons_self _ _)
  · intro hh
    exact h (List.mem_cons_of_mem _ hh)

theorem lookupKey_setKey {α : Type} (m : List (Str × α)) (k : Str) (v : α) (k' : Str) :
    lookupKey (setKey m k v) k' = if k' = k then some v else lookupKey m k' := by
  induction m with
  | nil =>
    show (if k = k' then some v else none) = if k' = k then some v else lookupKey [] k'
    by_cases h : k' = k
    · rw [if_pos h, if_pos h.symm]
    · rw [if_neg h, if_neg (fun hh => h hh.symm)]
      rfl
  | cons e rest ih =>
    obtain ⟨k₀, v₀⟩ := e
    simp only [setKey]
    by_cases h0 : k₀ = k
    · subst h0
      simp only [if_pos rfl, lookupKey]
      by_cases h : k' = k₀
      · rw [if_pos h, if_pos h.symm]
      · rw [if_neg h, if_neg (fun hh => h hh.symm), if_neg (fun hh => h hh.symm)]
    · simp only [if_neg h0, lookupKey]
      by_cases h1 : k₀ = k'
      · rw [if_pos h1, if_pos h1, if_neg (fun hh : k' = k => h0 (h1.trans hh))]
      · rw [if_neg h1, if_neg h1, ih]

theorem lookupKey_eraseKey {α : Type} (m : List (Str × α)) (k k' : Str) :
    lookupKey (eraseKey m k) k' = if k' = k then none else lookupKey m k' := by
  induction m with
  | nil =>
    show (none : Option α) = if k' = k then none else none
    by_cases h : k' = k
    · rw [if_pos h]
    · rw [if_neg h]
  | cons e rest ih =>
    obtain ⟨k₀, v₀⟩ := e
    simp only [eraseKey]
    by_cases h0 : k₀ = k
    · subst h0
      rw [if_pos rfl, ih]
      by_cases h : k' = k₀
      · rw [if_pos h, if_pos h]
      · rw [if_neg h, if_neg h]
        show lookupKey rest k' = if k₀ = k' then some v₀ else lookupKey rest k'
        rw [if_neg (fun hh => h hh.symm)]
    · rw [if_neg h0]
      show (if k₀ = k' then some v₀ else lookupKey (eraseKey rest k) k')
          = if k' = k then none else lookupKey ((k₀, v₀) :: rest) k'
      by_cases h1 : k₀ = k'
      · rw [if_pos h1, if_neg (fun hh : k' = k => h0 (h1.trans hh))]
        show some v₀ = if k₀ = k' then some v₀ else lookupKey rest k'
        rw [if_pos h1]
      · rw [if_neg h1, ih]
        by_cases h : k' = k
        · rw [if_pos h, if_pos h]
        · rw [if_neg h, if_neg h]
          show lookupKey rest k' = if k₀ = k' then some v₀ else lookupKey rest k'
          rw [if_neg h1]

theorem lookupKey_eq_none_of_not_mem {α : Type} (m : List (Str × α)) (k : Str)
    (h : k ∉ keysOf m) : lookupKey m k = none := by
  induction m with
  | nil => rfl
  | cons e rest ih =>
    obtain ⟨k₀, v₀⟩ := e
    obtain ⟨h0, hrest⟩ := not_mem_keysOf_cons h
    simp only [lookupKey, if_neg h0]
    exact ih hrest

theorem lookupKey_of_mem_nodup {α : Type} (m : List (Str × α)) (k : Str) (v : α)
    (hnd : (keysOf m).Nodup) (hmem : (k, v) ∈ m) : lookupKey m k = some v := by
  induction m with
  | nil => cases hmem
  | cons e rest ih =>
    obtain ⟨k₀, v₀⟩ := e
    rw [keysOf_cons, List.nodup_cons] at hnd
    rcases List.mem_cons.mp hmem with h | h
    · injection h with hk hv
      subst hk
      subst hv
      simp [lookupKey]
    · have hk : ¬ k₀ = k := by
        intro hh
        subst hh
        exact hnd.1 (List.mem_map.mpr ⟨(k₀, v), h, rfl⟩)
      simp only [lookupKey, if_neg hk]
      exact ih hnd.2 h

theorem setKey_of_not_mem {α : Type} (m : List (Str × α)) (k : Str) (v : α)
    (h : k ∉ keysOf m) : setKey m k v = m ++ [(k, v)] := by
  induction m with
  | nil => rfl
  | cons e rest ih =>
    obtain ⟨k₀, v₀⟩ := e
    obtain ⟨h0, hrest⟩ := not_mem_keysOf_cons h
    simp only [setKey, if_neg h0, List.cons_append, ih hrest]

theorem map_replace_id_of_not_mem {α : Type} (m : List (Str × α)) (k : Str) (v : α)
    (h : k ∉ keysOf m) :
    m.map (fun e => if e.1 = k then (k, v) else e) = m := by
  induction m with
  | nil => rfl
  | cons e rest ih =>
    obtain ⟨k₀, v₀⟩ := e
    obtain ⟨h0, hrest⟩ := not_mem_keysOf_cons h
    simp only [List.map_cons, ih hrest]
    simp [h0]

theorem setKey_eq_map_of_mem {α : Type} (m : List (Str × α)) (k : Str) (v : α)
    (hnd : (keysOf m).Nodup) (h : k ∈ keysOf m) :
    setKey m k v = m.map (fun e => if e.1 = k then (k, v) else e) := by
  induction m with
  | nil => cases h
  | cons e rest ih =>
    obtain ⟨k₀, v₀⟩ := e
    rw [keysOf_cons, List.nodup_cons] at hnd
    by_cases h0 : k₀ = k
    · subst h0
      simp [setKey, map_replace_id_of_not_mem rest k₀ v hnd.1]
    · have hrest : k ∈ keysOf rest := by
        rcases List.mem_cons.mp h with hh | hh
        · exact absurd hh.symm h0
        · exact hh
      simp [setKey, h0, ih hnd.2 hrest]

theorem keysOf_map_replace {α : Type} (m : List (Str × α)) (k : Str) (v : α) :
    keysOf (m.map (fun e => if e.1 = k then (k, v) else e)) = keysOf m := by
  induction m with
  | nil => rfl
  | cons e rest ih =>
    obtain ⟨k₀, v₀⟩ := e
    simp only [List.map_cons, keysOf_cons] at *
    by_cases h0 : k₀ = k
    · subst h0
      simp [ih]
    · simp only [if_neg h0]
      simp [ih]

theorem eraseKey_sublist {α : Type} (m : List (Str × α)) (k : Str) :
    List.Sublist (eraseKey m k) m := by
  induction m with
  | nil => simp [eraseKey]
  | cons e rest ih =>
    obtain ⟨k₀, v₀⟩ := e
    simp only [eraseKey]
    by_cases h0 : k₀ = k
    · rw [if_pos h0]
      exact List.Sublist.cons _ ih
    · rw [if_neg h0]
      exact List.Sublist.cons₂ _ ih

theorem mem_keysOf_eraseKey {α : Type} (m : List (Str × α)) (k k' : Str) :
    k' ∈ keysOf (eraseKey m k) ↔ k' ∈ keysOf m ∧ k' ≠ k := by
  induction m with
  | nil => simp [eraseKey, keysOf]
  | cons e rest ih =>
    obtain ⟨k₀, v₀⟩ := e
    simp only [eraseKey]
    by_cases h0 : k₀ = k
    · subst h0
      rw [if_pos rfl, ih, keysOf_cons, List.mem_cons]
      constructor
      · rintro ⟨h1, h2⟩
        exact ⟨.inr h1, h2⟩
      · rintro ⟨h1 | h1, h2⟩
        · exact absurd h1 h2
        · exact ⟨h1, h2⟩
    · rw [if_neg h0, keysOf_cons, keysOf_cons, List.mem_cons, List.mem_cons, ih]
      constructor
      · rintro (h1 | ⟨h1, h2⟩)
        · exact ⟨.inl h1, h1 ▸ fun hh => h0 hh⟩
        · exact ⟨.inr h1, h2⟩
      · rintro ⟨h1 | h1, h2⟩
        · exact .inl h1
        · exact .inr ⟨h1, h2⟩

theorem nodup_keysOf_setKey {α : Type} (m : List (Str × α)) (k : Str) (v : α)
    (hnd : (keysOf m).Nodup) : (keysOf (setKey m k v)).Nodup := by
  by_cases h : k ∈ keysOf m
  · rw [setKey_eq_map_of_mem m k v hnd h, keysOf_map_replace]
    exact hnd
  · rw [setKey_of_not_mem m k v h, keysOf_append]
    refine List.Nodup.append hnd (by simp [keysOf]) ?_
    intro a ha hb
    simp only [keysOf, List.map_cons, List.map_nil, List.mem_singleton] at hb
    exact h (hb ▸ ha)

theorem nodup_keysOf_eraseKey {α : Type} (m : List (Str × α)) (k : Str)
    (hnd : (keysOf m).Nodup) : (keysOf (eraseKey m k)).Nodup :=
  ((eraseKey_sublist m k).map Prod.fst).nodup hnd

/-! ### File state and the file-state reducer (src/libs/deepagents/src/middleware/fs.ts) -/

/-- One stored document, per `FileDataSchema` in fs.ts: content as a list of
lines plus two timestamps. -/
structure FileData where
  content : List Str
  created_at : Str
  modified_at : Str
deriving DecidableEq

/-- Type `FilesRecord` from fs.ts: a JS object mapping paths to `FileData`. -/
abbrev FilesRecord := List (Str × FileData)

/-- Type `FilesRecordUpdate` from fs.ts: a JS object mapping paths to
`FileData | null`, where `null` (here `none`) signals deletion. -/
abbrev FilesRecordUpdate := List (Str × Option FileData)

/-- The seed loop of `fileDataReducer` when `current` is absent: copy the
non-null entries of the update into a fresh object, in order. -/
def seedFold {α : Type} (upd : List (Str × Option α)) (acc : List (Str × α)) :
    List (Str × α) :=
  upd.foldl (fun acc kv =>
    match kv.2 with
    | none => acc
    | some d => setKey acc kv.1 d) acc

/-- The merge loop of `fileDataReducer`: for each update entry, delete the key
if the value is null, else upsert it. -/
def applyUpd {α : Type} (upd : List (Str × Option α)) (m : List (Str × α)) :
    List (Str × α) :=
  upd.foldl (fun acc kv =>
    match kv.2 with
    | none => eraseKey acc kv.1
    | some d => setKey acc kv.1 d) m

/-- Translation of `fileDataReducer` (fs.ts lines 176-206): no update returns
current (or `{}`); no current seeds from update dropping nulls; otherwise the
update's entries are applied to a copy of current. -/
def fileDataReducer (current : Option FilesRecord) (update : Option FilesRecordUpdate) :
    FilesRecord :=
  match update with
  | none => current.getD []
  | some upd =>
    match current with
    | none => seedFold upd []
    | some cur => applyUpd upd cur

theorem applyUpd_nil {α : Type} (m : List (Str × α)) : applyUpd [] m = m := rfl

theorem applyUpd_cons_none {α : Type} (k : Str) (rest : List (Str × Option α))
    (m : List (Str × α)) :
    applyUpd ((k, none) :: rest) m = applyUpd rest (eraseKey m k) := rfl

theorem applyUpd_cons_some {α : Type} (k : Str) (d : α) (rest : List (Str × Option α))
    (m : List (Str × α)) :
    applyUpd ((k, some d) :: rest) m = applyUpd rest (setKey m k d) := rfl

theorem lookupKey_applyUpd_not_mem {α : Type} (upd : List (Str × Option α))
    (m : List (Str × α)) (k : Str) (h : k ∉ keysOf upd) :
    lookupKey (applyUpd upd m) k = lookupKey m k := by
  induction upd generalizing m with
  | nil => rfl
  | cons e rest ih =>
    obtain ⟨k₀, v₀⟩ := e
    obtain ⟨h0, hrest⟩ := not_mem_keysOf_cons h
    have hkk : ¬ k = k₀ := fun hh => h0 hh.symm
    cases v₀ with
    | none => rw [applyUpd_cons_none, ih _ hrest, lookupKey_eraseKey, if_neg hkk]
    | some d => rw [applyUpd_cons_some, ih _ hrest, lookupKey_setKey, if_neg hkk]

theorem lookupKey_applyUpd_mem {α : Type} (upd : List (Str × Option α))
    (m : List (Str × α)) (k : Str) (v : Option α)
    (hnd : (keysOf upd).Nodup) (hmem : (k, v) ∈ upd) :
    lookupKey (applyUpd upd m) k = v := by
  induction upd generalizing m with
  | nil => cases hmem
  | cons e rest ih =>
    obtain ⟨k₀, v₀⟩ := e
    rw [keysOf_cons, List.nodup_cons] at hnd
    rcases List.mem_cons.mp hmem with h | h
    · injection h with hk hv
      subst hk
      subst hv
      have hrest : k ∉ keysOf rest := hnd.1
      cases v with
      | none =>
        rw [applyUpd_cons_none, lookupKey_applyUpd_not_mem _ _ _ hrest,
          lookupKey_eraseKey, if_pos rfl]
      | some d =>
        rw [applyUpd_cons_some, lookupKey_applyUpd_not_mem _ _ _ hrest,
          lookupKey_setKey, if_pos rfl]
    · cases v₀ with
      | none => rw [applyUpd_cons_none]; exact ih _ hnd.2 h
      | some d => rw [applyUpd_cons_some]; exact ih _ hnd.2 h

theorem seedFold_eq {α : Type} (upd : List (Str × Option α)) :
    ∀ (acc : List (Str × α)), (∀ k ∈ keysOf upd, k ∉ keysOf acc) →
    (keysOf upd).Nodup →
    seedFold upd acc
      = acc ++ upd.filterMap (fun kv => kv.2.map (fun d => (kv.1, d))) := by
  induction upd with
  | nil => intro acc _ _; simp [seedFold]
  | cons e rest ih =>
    intro acc hfresh hnd
    obtain ⟨k₀, v₀⟩ := e
    rw [keysOf_cons, List.nodup_cons] at hnd
    cases v₀ with
    | none =>
      rw [show seedFold ((k₀, none) :: rest) acc = seedFold rest acc from rfl,
        ih acc (fun k hk => hfresh k (List.mem_cons_of_mem _ hk)) hnd.2]
      simp
    | some d =>
      have hk₀ : k₀ ∉ keysOf acc := hfresh k₀ (List.mem_cons_self _ _)
      have hfresh' : ∀ k ∈ keysOf rest, k ∉ keysOf (acc ++ [(k₀, d)]) := by
        intro k hk
        rw [keysOf_append]
        intro hmem
        rcases List.mem_append.mp hmem with hh | hh
        · exact hfresh k (List.mem_cons_of_mem _ hk) hh
        · simp only [keysOf, List.map_cons, List.map_nil, List.mem_singleton] at hh
          exact hnd.1 (hh ▸ hk)
      rw [show seedFold ((k₀, some d) :: rest) acc
            = seedFold rest (setKey acc k₀ d) from rfl,
        setKey_of_not_mem acc k₀ d hk₀,
        ih (acc ++ [(k₀, d)]) hfresh' hnd.2, List.append_assoc]
      simp

theorem fileDataReducer_seed (upd : FilesRecordUpdate) (hnd : (keysOf upd).Nodup) :
    fileDataReducer none (some upd)
      = upd.filterMap (fun kv => kv.2.map (fun d => (kv.1, d))) := by
  have := seedFold_eq upd [] (by intro k _ hk; cases hk) hnd
  simpa [fileDataReducer] using this

/-- C1: for every files map `C` and update `U`, `fileDataReducer(C,U)` maps
every key of `U` to exactly its updated value (no entry when the update is
null), leaves every key of `C` outside `U` unchanged, returns `C` unchanged
(or `{}`) when `U` is absent, and when `C` is absent seeds from `U` with the
null-valued entries dropped. -/
theorem fileDataReducer_merge_spec (cur : FilesRecord) (upd : FilesRecordUpdate)
    (hU : (keysOf upd).Nodup) :
    (∀ k v, (k, v) ∈ upd → lookupKey (fileDataReducer (some cur) (some upd)) k = v)
    ∧ (∀ k, k ∉ keysOf upd →
        lookupKey (fileDataReducer (some cur) (some upd)) k = lookupKey cur k)
    ∧ fileDataReducer (some cur) none = cur
    ∧ fileDataReducer none none = []
    ∧ fileDataReducer none (some upd)
        = upd.filterMap (fun kv => kv.2.map (fun d => (kv.1, d))) := by
  refine ⟨?_, ?_, rfl, rfl, fileDataReducer_seed upd hU⟩
  · intro k v hmem
    exact lookupKey_applyUpd_mem upd cur k v hU hmem
  · intro k hk
    exact lookupKey_applyUpd_not_mem upd cur k hk

theorem fileDataReducer_merge_spec_witness :
    ((keysOf [(['/', 'a'], (none : Option FileData)),
              (['/', 'b'], some ⟨[['y']], ['2'], ['2']⟩)]).Nodup)
    ∧ ((∀ k v, (k, v) ∈ [(['/', 'a'], (none : Option FileData)),
              (['/', 'b'], some ⟨[['y']], ['2'], ['2']⟩)] →
        lookupKey (fileDataReducer (some [(['/', 'a'], ⟨[['x']], ['1'], ['1']⟩)])
          (some [(['/', 'a'], none), (['/', 'b'], some ⟨[['y']], ['2'], ['2']⟩)])) k = v)
      ∧ (∀ k, k ∉ keysOf [(['/', 'a'], (none : Option FileData)),
              (['/', 'b'], some ⟨[['y']], ['2'], ['2']⟩)] →
          lookupKey (fileDataReducer (some [(['/', 'a'], ⟨[['x']], ['1'], ['1']⟩)])
            (some [(['/', 'a'], none), (['/', 'b'], some ⟨[['y']], ['2'], ['2']⟩)])) k
            = lookupKey [(['/', 'a'], ⟨[['x']], ['1'], ['1']⟩)] k)
      ∧ fileDataReducer (some [(['/', 'a'], ⟨[['x']], ['1'], ['1']⟩)]) none
          = [(['/', 'a'], ⟨[['x']], ['1'], ['1']⟩)]
      ∧ fileDataReducer none none = []
      ∧ fileDataReducer none
          (some [(['/', 'a'], none), (['/', 'b'], some ⟨[['y']], ['2'], ['2']⟩)])
          = [(['/', 'a'], (none : Option FileData)),
             (['/', 'b'], some ⟨[['y']], ['2'], ['2']⟩)].filterMap
              (fun kv => kv.2.map (fun d => (kv.1, d)))) :=
  ⟨by decide,
   fileDataReducer_merge_spec [(['/', 'a'], ⟨[['x']], ['1'], ['1']⟩)]
     [(['/', 'a'], none), (['/', 'b'], some ⟨[['y']], ['2'], ['2']⟩)] (by decide)⟩

/-! ### Structural characterisation of the merge, and idempotence -/

theorem filterMap_congr_mem {α β : Type} (l : List α) (f g : α → Option β)
    (h : ∀ a ∈ l, f a = g a) : l.filterMap f = l.filterMap g := by
  induction l with
  | nil => rfl
  | cons a rest ih =>
    rw [List.filterMap_cons, List.filterMap_cons, h a (List.mem_cons_self _ _),
      ih (fun x hx => h x (List.mem_cons_of_mem _ hx))]

theorem filterMap_bind {α β γ : Type} (l : List α) (f : α → Option β) (g : β → Option γ) :
    (l.filterMap f).filterMap g = l.filterMap (fun a => (f a).bind g) := by
  induction l with
  | nil => rfl
  | cons a rest ih =>
    rw [List.filterMap_cons, List.filterMap_cons]
    cases hf : f a with
    | none => simpa [Option.bind] using ih
    | some b =>
      rw [List.filterMap_cons]
      cases hg : g b with
      | none => simpa [Option.bind, hg] using ih
      | some c => simpa [Option.bind, hg] using ih

theorem filterMap_all_none {α β : Type} (l : List α) (f : α → Option β)
    (h : ∀ a ∈ l, f a = none) : l.filterMap f = [] := by
  induction l with
  | nil => rfl
  | cons a rest ih =>
    rw [List.filterMap_cons, h a (List.mem_cons_self _ _),
      ih (fun x hx => h x (List.mem_cons_of_mem _ hx))]

theorem filterMap_some_id {α : Type} (l : List α) :
    l.filterMap (fun a => some a) = l := by
  induction l with
  | nil => rfl
  | cons a rest ih => rw [List.filterMap_cons]; simp [ih]

theorem filterMap_map_fn {α β γ : Type} (l : List α) (f : α → β) (g : β → Option γ) :
    (l.map f).filterMap g = l.filterMap (fun a => g (f a)) := by
  induction l with
  | nil => rfl
  | cons a rest ih =>
    rw [List.map_cons, List.filterMap_cons, List.filterMap_cons, ih]

theorem filterMap_eraseKey {α β : Type} (m : List (Str × α)) (k : Str)
    (f : (Str × α) → Option β) :
    (eraseKey m k).filterMap f
      = m.filterMap (fun e => if e.1 = k then none else f e) := by
  induction m with
  | nil => rfl
  | cons e rest ih =>
    obtain ⟨k₀, v₀⟩ := e
    simp only [eraseKey]
    by_cases h0 : k₀ = k
    · rw [if_pos h0, ih, List.filterMap_cons]
      simp only [if_pos h0]
    · rw [if_neg h0, List.filterMap_cons, List.filterMap_cons, ih]
      simp only [if_neg h0]

/-- The per-entry effect of a merge pass on an entry already in the map: drop
it if the update deletes its key, replace its value if the update rewrites its
key, keep it otherwise. -/
def updEntry {α : Type} (upd : List (Str × Option α)) (e : Str × α) :
    Option (Str × α) :=
  match lookupKey upd e.1 with
  | none => some e
  | some none => none
  | some (some d) => some (e.1, d)

/-- The per-entry effect of a merge pass on an update entry whose key is not
in the map: append it if it carries a value, contribute nothing otherwise. -/
def freshEntry {α : Type} (m : List (Str × α)) (kv : Str × Option α) :
    Option (Str × α) :=
  if kv.1 ∈ keysOf m then none else kv.2.map (fun d => (kv.1, d))

theorem applyUpd_eq_filterMap {α : Type} (upd : List (Str × Option α)) :
    ∀ (m : List (Str × α)), (keysOf upd).Nodup → (keysOf m).Nodup →
    applyUpd upd m = m.filterMap (updEntry upd) ++ upd.filterMap (freshEntry m) := by
  induction upd with
  | nil =>
    intro m _ _
    have : updEntry ([] : List (Str × Option α)) = fun e => some e := by
      funext e
      rfl
    rw [applyUpd_nil, this, filterMap_some_id]
    simp
  | cons e₀ rest ih =>
    intro m hndU hndM
    obtain ⟨k₀, v₀⟩ := e₀
    rw [keysOf_cons, List.nodup_cons] at hndU
    cases v₀ with
    | none =>
      rw [applyUpd_cons_none,
        ih (eraseKey m k₀) hndU.2 (nodup_keysOf_eraseKey m k₀ hndM),
        filterMap_eraseKey]
      have h1 : m.filterMap (fun e => if e.1 = k₀ then none else updEntry rest e)
          = m.filterMap (updEntry ((k₀, none) :: rest)) := by
        refine filterMap_congr_mem _ _ _ (fun e _ => ?_)
        by_cases hk : e.1 = k₀
        · simp [updEntry, lookupKey, hk, if_pos rfl]
        · simp [updEntry, lookupKey, hk, if_neg (fun hh : k₀ = e.1 => hk hh.symm)]
      have h2 : rest.filterMap (freshEntry (eraseKey m k₀))
          = rest.filterMap (freshEntry m) := by
        refine filterMap_congr_mem _ _ _ (fun kv hkv => ?_)
        have hne : kv.1 ≠ k₀ := by
          intro hh
          exact hndU.1 (hh ▸ List.mem_map.mpr ⟨kv, hkv, rfl⟩)
        by_cases hmem : kv.1 ∈ keysOf m
        · have : kv.1 ∈ keysOf (eraseKey m k₀) :=
            (mem_keysOf_eraseKey m k₀ kv.1).mpr ⟨hmem, hne⟩
          simp [freshEntry, hmem, this]
        · have : kv.1 ∉ keysOf (eraseKey m k₀) := by
            intro hh
            exact hmem ((mem_keysOf_eraseKey m k₀ kv.1).mp hh).1
          simp [freshEntry, hmem, this]
      rw [h1, h2, List.filterMap_cons]
      simp [freshEntry]
    | some d₀ =>
      rw [applyUpd_cons_some]
      by_cases hk : k₀ ∈ keysOf m
      · rw [setKey_eq_map_of_mem m k₀ d₀ hndM hk]
        have hndM' : (keysOf (m.map (fun e => if e.1 = k₀ then (k₀, d₀) else e))).Nodup := by
          rw [keysOf_map_replace]
          exact hndM
        rw [ih _ hndU.2 hndM', filterMap_map_fn]
        have h1 : m.filterMap
              (fun e => updEntry rest (if e.1 = k₀ then (k₀, d₀) else e))
            = m.filterMap (updEntry ((k₀, some d₀) :: rest)) := by
          refine filterMap_congr_mem _ _ _ (fun e _ => ?_)
          by_cases he : e.1 = k₀
          · rw [if_pos he]
            have : lookupKey rest k₀ = none :=
              lookupKey_eq_none_of_not_mem rest k₀ hndU.1
            simp [updEntry, lookupKey, he, this]
          · rw [if_neg he]
            simp [updEntry, lookupKey, if_neg (fun hh : k₀ = e.1 => he hh.symm)]
        have h2 : rest.filterMap
              (freshEntry (m.map (fun e => if e.1 = k₀ then (k₀, d₀) else e)))
            = rest.filterMap (freshEntry m) := by
          refine filterMap_congr_mem _ _ _ (fun kv _ => ?_)
          simp [freshEntry, keysOf_map_replace]
        rw [h1, h2, List.filterMap_cons]
        simp [freshEntry, hk]
      · rw [setKey_of_not_mem m k₀ d₀ hk]
        have hndM' : (keysOf (m ++ [(k₀, d₀)])).Nodup := by
          rw [keysOf_append]
          refine List.Nodup.append hndM (by simp [keysOf]) ?_
          intro a ha hb
          simp only [keysOf, List.map_cons, List.map_nil, List.mem_singleton] at hb
          exact hk (hb ▸ ha)
        rw [ih _ hndU.2 hndM', List.filterMap_append]
        have hsing : ([(k₀, d₀)] : List (Str × α)).filterMap (updEntry rest)
            = [(k₀, d₀)] := by
          have : lookupKey rest k₀ = none :=
            lookupKey_eq_none_of_not_mem rest k₀ hndU.1
          simp [updEntry, this]
        have h1 : m.filterMap (updEntry rest)
            = m.filterMap (updEntry ((k₀, some d₀) :: rest)) := by
          refine filterMap_congr_mem _ _ _ (fun e he => ?_)
          have hne : e.1 ≠ k₀ := by
            intro hh
            exact hk (hh ▸ List.mem_map.mpr ⟨e, he, rfl⟩)
          simp [updEntry, lookupKey, if_neg (fun hh : k₀ = e.1 => hne hh.symm)]
        have h2 : rest.filterMap (freshEntry (m ++ [(k₀, d₀)]))
            = rest.filterMap (freshEntry m) := by
          refine filterMap_congr_mem _ _ _ (fun kv hkv => ?_)
          have hne : kv.1 ≠ k₀ := by
            intro hh
            exact hndU.1 (hh ▸ List.mem_map.mpr ⟨kv, hkv, rfl⟩)
          have : (kv.1 ∈ keysOf (m ++ [(k₀, d₀)])) ↔ kv.1 ∈ keysOf m := by
            rw [keysOf_append]
            simp only [List.mem_append]
            constructor
            · rintro (hh | hh)
              · exact hh
              · simp only [keysOf, List.map_cons, List.map_nil,
                  List.mem_singleton] at hh
                exact absurd hh hne
            · exact fun hh => .inl hh
          by_cases hmem : kv.1 ∈ keysOf m
          · simp [freshEntry, hmem, this.mpr hmem]
          · have hmem' : kv.1 ∉ keysOf (m ++ [(k₀, d₀)]) := fun hh => hmem (this.mp hh)
            simp only [freshEntry, if_neg hmem, if_neg hmem']
        have hfr : freshEntry m (k₀, some d₀) = some (k₀, d₀) := by
          simp [freshEntry, hk]
        have hcons : ((k₀, some d₀) :: rest).filterMap (freshEntry m)
            = (k₀, d₀) :: rest.filterMap (freshEntry m) := by
          rw [List.filterMap_cons, hfr]
        rw [hsing, h1, h2, hcons, List.append_assoc]
        rfl

theorem nodup_keysOf_applyUpd {α : Type} (upd : List (Str × Option α)) :
    ∀ (m : List (Str × α)), (keysOf m).Nodup → (keysOf (applyUpd upd m)).Nodup := by
  induction upd with
  | nil => intro m h; exact h
  | cons e rest ih =>
    intro m h
    obtain ⟨k₀, v₀⟩ := e
    cases v₀ with
    | none => rw [applyUpd_cons_none]; exact ih _ (nodup_keysOf_eraseKey m k₀ h)
    | some d => rw [applyUpd_cons_some]; exact ih _ (nodup_keysOf_setKey m k₀ d h)

theorem applyUpd_idem {α : Type} (upd : List (Str × Option α)) (m : List (Str × α))
    (hndU : (keysOf upd).Nodup) (hndM : (keysOf m).Nodup) :
    applyUpd upd (applyUpd upd m) = applyUpd upd m := by
  have h1 : applyUpd upd m
      = m.filterMap (updEntry upd) ++ upd.filterMap (freshEntry m) :=
    applyUpd_eq_filterMap upd m hndU hndM
  have hndAB : (keysOf (m.filterMap (updEntry upd) ++ upd.filterMap (freshEntry m))).Nodup :=
    h1 ▸ nodup_keysOf_applyUpd upd m hndM
  rw [h1, applyUpd_eq_filterMap upd _ hndU hndAB, List.filterMap_append]
  have hA : (m.filterMap (updEntry upd)).filterMap (updEntry upd)
      = m.filterMap (updEntry upd) := by
    rw [filterMap_bind]
    refine filterMap_congr_mem _ _ _ (fun e _ => ?_)
    unfold updEntry
    cases hl : lookupKey upd e.1 with
    | none => simp [Option.bind, hl]
    | some w =>
      cases w with
      | none => simp [Option.bind]
      | some d => simp [Option.bind, hl]
  have hB : (upd.filterMap (freshEntry m)).filterMap (updEntry upd)
      = upd.filterMap (freshEntry m) := by
    rw [filterMap_bind]
    refine filterMap_congr_mem _ _ _ (fun kv hkv => ?_)
    obtain ⟨k, v⟩ := kv
    cases v with
    | none => simp [freshEntry, Option.bind]
    | some d =>
      by_cases hmem : k ∈ keysOf m
      · simp [freshEntry, hmem, Option.bind]
      · have hl : lookupKey upd k = some (some d) :=
          lookupKey_of_mem_nodup upd k (some d) hndU hkv
        simp [freshEntry, hmem, Option.bind, updEntry, hl]
  have hC : upd.filterMap
        (freshEntry (m.filterMap (updEntry upd) ++ upd.filterMap (freshEntry m))) = [] := by
    refine filterMap_all_none _ _ (fun kv hkv => ?_)
    obtain ⟨k, v⟩ := kv
    cases v with
    | none => simp [freshEntry]
    | some d =>
      have hl : lookupKey upd k = some (some d) :=
        lookupKey_of_mem_nodup upd k (some d) hndU hkv
      have hmemAB : k ∈ keysOf
          (m.filterMap (updEntry upd) ++ upd.filterMap (freshEntry m)) := by
        rw [keysOf_append, List.mem_append]
        by_cases hmem : k ∈ keysOf m
        · left
          obtain ⟨e, he, hke⟩ := List.mem_map.mp hmem
          have : updEntry upd e = some (e.1, d) := by
            unfold updEntry
            rw [hke, hl]
          exact List.mem_map.mpr
            ⟨(e.1, d), List.mem_filterMap.mpr ⟨e, he, this⟩, hke⟩
        · right
          have : freshEntry m (k, some d) = some (k, d) := by
            simp [freshEntry, hmem]
          exact List.mem_map.mpr
            ⟨(k, d), List.mem_filterMap.mpr ⟨(k, some d), hkv, this⟩, rfl⟩
      simp [freshEntry, hmemAB]
  rw [hA, hB, hC, List.append_nil]

theorem seed_keys_sublist {α : Type} (upd : List (Str × Option α)) :
    List.Sublist (keysOf (upd.filterMap (fun kv => kv.2.map (fun d => (kv.1, d)))))
      (keysOf upd) := by
  induction upd with
  | nil => simp [keysOf]
  | cons e rest ih =>
    obtain ⟨k, v⟩ := e
    cases v with
    | none =>
      have hstep : ((k, (none : Option α)) :: rest).filterMap
            (fun kv => kv.2.map (fun d => (kv.1, d)))
          = rest.filterMap (fun kv => kv.2.map (fun d => (kv.1, d))) := by
        simp
      rw [hstep, keysOf_cons]
      exact List.Sublist.cons _ ih
    | some d =>
      have hstep : ((k, some d) :: rest).filterMap
            (fun kv => kv.2.map (fun d => (kv.1, d)))
          = (k, d) :: rest.filterMap (fun kv => kv.2.map (fun d => (kv.1, d))) := by
        simp
      rw [hstep, keysOf_cons, keysOf_cons]
      exact List.Sublist.cons₂ _ ih

/-- C3: the file-state merge is idempotent — re-applying the same update to an
already-merged files map changes nothing.  The hypotheses state that (as for
every JS object) keys are unique in the current map and in the update. -/
theorem fileDataReducer_idem (cur : Option FilesRecord) (upd : Option FilesRecordUpdate)
    (hC : (keysOf (cur.getD [])).Nodup) (hU : (keysOf (upd.getD [])).Nodup) :
    fileDataReducer (some (fileDataReducer cur upd)) upd = fileDataReducer cur upd := by
  cases upd with
  | none => rfl
  | some u =>
    have hU' : (keysOf u).Nodup := hU
    cases cur with
    | some c =>
      have hC' : (keysOf c).Nodup := hC
      show applyUpd u (applyUpd u c) = applyUpd u c
      exact applyUpd_idem u c hU' hC'
    | none =>
      show applyUpd u (fileDataReducer none (some u)) = fileDataReducer none (some u)
      rw [fileDataReducer_seed u hU']
      set S := u.filterMap (fun kv => kv.2.map (fun d => (kv.1, d))) with hS
      have hndS : (keysOf S).Nodup := (seed_keys_sublist u).nodup hU'
      rw [applyUpd_eq_filterMap u S hU' hndS]
      have hA : S.filterMap (updEntry u) = S := by
        rw [hS, filterMap_bind]
        refine filterMap_congr_mem _ _ _ (fun kv hkv => ?_)
        obtain ⟨k, v⟩ := kv
        cases v with
        | none => simp [Option.bind]
        | some d =>
          have hl : lookupKey u k = some (some d) :=
            lookupKey_of_mem_nodup u k (some d) hU' hkv
          simp [Option.bind, updEntry, hl]
      have hB : u.filterMap (freshEntry S) = [] := by
        refine filterMap_all_none _ _ (fun kv hkv => ?_)
        obtain ⟨k, v⟩ := kv
        cases v with
        | none => simp [freshEntry]
        | some d =>
          have : (k, d) ∈ S := by
            rw [hS]
            exact List.mem_filterMap.mpr ⟨(k, some d), hkv, by simp⟩
          have hmem : k ∈ keysOf S := List.mem_map.mpr ⟨(k, d), this, rfl⟩
          simp [freshEntry, hmem]
      rw [hA, hB, List.append_nil]

theorem fileDataReducer_idem_witness :
    ((keysOf ((some [(['/', 'a'], FileData.mk [['x']] ['1'] ['1'])]).getD [])).Nodup)
    ∧ ((keysOf ((some [(['/', 'a'], (none : Option FileData)),
          (['/', 'b'], some ⟨[['y']], ['2'], ['2']⟩)]).getD [])).Nodup)
    ∧ fileDataReducer
        (some (fileDataReducer (some [(['/', 'a'], FileData.mk [['x']] ['1'] ['1'])])
          (some [(['/', 'a'], none), (['/', 'b'], some ⟨[['y']], ['2'], ['2']⟩)])))
        (some [(['/', 'a'], none), (['/', 'b'], some ⟨[['y']], ['2'], ['2']⟩)])
      = fileDataReducer (some [(['/', 'a'], FileData.mk [['x']] ['1'] ['1'])])
          (some [(['/', 'a'], none), (['/', 'b'], some ⟨[['y']], ['2'], ['2']⟩)]) :=
  ⟨by decide, by decide,
   fileDataReducer_idem (some [(['/', 'a'], FileData.mk [['x']] ['1'] ['1'])])
     (some [(['/', 'a'], none), (['/', 'b'], some ⟨[['y']], ['2'], ['2']⟩)])
     (by decide) (by decide)⟩

/-! ### Content previews for evicted tool results (fs.ts `createContentPreview`) -/

/-- One numbered output line per input line: `<number><TAB><line>`, numbering
continuing from `start`. -/
def numberLines (start : Nat) : List Str → List Str
  | [] => []
  | l :: ls => (natToChars start ++ '\t' :: l) :: numberLines (start + 1) ls

/-- Modelled from the spec: `formatContentWithLineNumbers` is imported by
fs.ts from `../backends/utils.js`, whose source is not included here.  The
spec (§4.7, §4.8) describes it as 1-indexed `cat -n`-style numbering starting
at `startLine`, one numbered output line per input line. -/
def formatContentWithLineNumbers (lines : List Str) (startLine : Nat) : Str :=
  joinNl (numberLines startLine lines)

/-- The `[N lines truncated]` marker line of `createContentPreview`. -/
def truncationMarker (omitted : Nat) : Str :=
  "... [".data ++ natToChars omitted ++ " lines truncated] ...".data

/-- Model of JavaScript `arr.slice(-t)` (`slice(-0)` is the whole array). -/
def jsSliceLast {α : Type} (l : List α) (t : Nat) : List α :=
  if t = 0 then l else l.drop (l.length - t)

/-- Translation of `createContentPreview` (fs.ts lines 111-136): show all
lines when there are at most `headLines + tailLines` of them, otherwise the
first `headLines` and last `tailLines` lines around a truncation marker, every
line capped at 1000 characters, with continuing line numbers on the tail. -/
def createContentPreview (contentStr : Str) (headLines : Nat := 5)
    (tailLines : Nat := 5) : Str :=
  let lines := splitNl contentStr
  if lines.length ≤ headLines + tailLines then
    formatContentWithLineNumbers (lines.map (fun l => l.take 1000)) 1
  else
    let head := (lines.take headLines).map (fun l => l.take 1000)
    let tail := (jsSliceLast lines tailLines).map (fun l => l.take 1000)
    let headSample := formatContentWithLineNumbers head 1
    let truncationNotice :=
      '\n' :: truncationMarker (lines.length - headLines - tailLines) ++ ['\n']
    let tailSample := formatContentWithLineNumbers tail (lines.length - tailLines + 1)
    headSample ++ truncationNotice ++ tailSample

theorem numberLines_length (start : Nat) (ls : List Str) :
    (numberLines start ls).length = ls.length := by
  induction ls generalizing start with
  | nil => rfl
  | cons l rest ih => simp [numberLines, ih]

theorem numberLines_ne_nil (start : Nat) (ls : List Str) (h : ls ≠ []) :
    numberLines start ls ≠ [] := by
  cases ls with
  | nil => exact absurd rfl h
  | cons l rest => simp [numberLines]

theorem no_newline_numberLines (start : Nat) (ls : List Str)
    (h : ∀ l ∈ ls, '\n' ∉ l) : ∀ e ∈ numberLines start ls, '\n' ∉ e := by
  induction ls generalizing start with
  | nil => simp [numberLines]
  | cons l rest ih =>
    intro e he
    rcases List.mem_cons.mp he with h' | h'
    · subst h'
      intro hmem
      rcases List.mem_append.mp hmem with hh | hh
      · exact no_newline_natToChars start hh
      · rcases List.mem_cons.mp hh with hh' | hh'
        · exact absurd hh'.symm (by decide)
        · exact h l (List.mem_cons_self _ _) hh'
    · exact ih (start + 1) (fun x hx => h x (List.mem_cons_of_mem _ hx)) e h'

theorem no_newline_take (l : Str) (n : Nat) (h : '\n' ∉ l) : '\n' ∉ l.take n :=
  fun hmem => h (List.take_subset n l hmem)

theorem no_newline_truncationMarker (n : Nat) : '\n' ∉ truncationMarker n := by
  intro hmem
  rcases List.mem_append.mp hmem with h | h
  · rcases List.mem_append.mp h with h' | h'
    · revert h'
      decide
    · exact no_newline_natToChars n h'
  · revert h
    decide

theorem joinNl_mid (A B : List Str) (m : Str) (hA : A ≠ []) (hB : B ≠ []) :
    joinNl (A ++ m :: B) = joinNl A ++ '\n' :: m ++ '\n' :: joinNl B := by
  induction A with
  | nil => exact absurd rfl hA
  | cons a as ih =>
    cases as with
    | nil =>
      cases B with
      | nil => exact absurd rfl hB
      | cons b bs =>
        have h1 : joinNl ([a] ++ m :: b :: bs) = a ++ '\n' :: joinNl (m :: b :: bs) := rfl
        have h2 : joinNl (m :: b :: bs) = m ++ '\n' :: joinNl (b :: bs) := rfl
        rw [h1, h2]
        show a ++ '\n' :: (m ++ '\n' :: joinNl (b :: bs))
            = joinNl [a] ++ '\n' :: m ++ '\n' :: joinNl (b :: bs)
        show a ++ '\n' :: (m ++ '\n' :: joinNl (b :: bs))
            = (a ++ ('\n' :: m)) ++ ('\n' :: joinNl (b :: bs))
        simp [List.append_assoc]
    | cons a' as' =>
      have hmid := ih (by simp)
      have h1 : joinNl ((a :: a' :: as') ++ m :: B)
          = a ++ '\n' :: joinNl ((a' :: as') ++ m :: B) := rfl
      have h2 : joinNl (a :: a' :: as') = a ++ '\n' :: joinNl (a' :: as') := rfl
      rw [h1, hmid, h2]
      simp [List.append_assoc]

/-- C4: with head = tail = 5, the preview of content with at most 10 lines
numbers every line from 1 (each capped at 1000 chars); the preview of content
with more than 10 lines is exactly 11 output lines: the first five lines, one
marker stating the omitted count (total − 10), and the last five lines
numbered continuously from total − 5 + 1. -/
theorem createContentPreview_spec (c : Str) :
    splitNl (createContentPreview c 5 5)
      = (if (splitNl c).length ≤ 10 then
          numberLines 1 ((splitNl c).map (fun l => l.take 1000))
        else
          numberLines 1 (((splitNl c).take 5).map (fun l => l.take 1000))
            ++ [truncationMarker ((splitNl c).length - 10)]
            ++ numberLines ((splitNl c).length - 5 + 1)
                (((splitNl c).drop ((splitNl c).length - 5)).map (fun l => l.take 1000)))
    ∧ (splitNl (createContentPreview c 5 5)).length
      = (if (splitNl c).length ≤ 10 then (splitNl c).length else 11) := by
  have hnl : ∀ l ∈ splitNl c, '\n' ∉ l := mem_splitNl_no_newline c
  by_cases hle : (splitNl c).length ≤ 10
  · rw [if_pos hle, if_pos hle]
    have hdef : createContentPreview c 5 5
        = joinNl (numberLines 1 ((splitNl c).map (fun l => l.take 1000))) := by
      unfold createContentPreview formatContentWithLineNumbers
      rw [if_pos hle]
    have hne : (splitNl c).map (fun l => l.take 1000) ≠ [] := by
      intro hh
      exact splitNl_ne_nil c (List.map_eq_nil_iff.mp hh)
    have hsplit : splitNl (joinNl (numberLines 1 ((splitNl c).map (fun l => l.take 1000))))
        = numberLines 1 ((splitNl c).map (fun l => l.take 1000)) := by
      refine splitNl_joinNl _ (numberLines_ne_nil _ _ hne) ?_
      refine no_newline_numberLines _ _ ?_
      intro l hl
      obtain ⟨x, hx, hxl⟩ := List.mem_map.mp hl
      exact hxl ▸ no_newline_take x 1000 (hnl x hx)
    rw [hdef, hsplit]
    refine ⟨rfl, ?_⟩
    rw [numberLines_length, List.length_map]
  · rw [if_neg hle, if_neg hle]
    push_neg at hle
    set L := splitNl c with hL
    have hlen : 10 < L.length := by rw [hL]; exact hle
    set A := numberLines 1 ((L.take 5).map (fun l => l.take 1000)) with hAdef
    set B := numberLines (L.length - 5 + 1)
        ((L.drop (L.length - 5)).map (fun l => l.take 1000)) with hBdef
    have hdef : createContentPreview c 5 5
        = joinNl A ++ '\n' :: truncationMarker (L.length - 10) ++ '\n' :: joinNl B := by
      unfold createContentPreview formatContentWithLineNumbers jsSliceLast
      rw [show splitNl c = L from hL.symm]
      rw [if_neg (by omega : ¬ L.length ≤ 5 + 5)]
      rw [if_neg (by omega : ¬ (5 : Nat) = 0)]
      have : L.length - 5 - 5 = L.length - 10 := by omega
      rw [this]
      simp [hAdef, hBdef, List.append_assoc, List.map_take, List.map_drop]
    have hAne : A ≠ [] := by
      refine numberLines_ne_nil _ _ ?_
      intro hh
      have := List.map_eq_nil_iff.mp hh
      have h5 : (L.take 5).length = 5 := by
        rw [List.length_take]
        omega
      rw [this] at h5
      simp at h5
    have hBne : B ≠ [] := by
      refine numberLines_ne_nil _ _ ?_
      intro hh
      have := List.map_eq_nil_iff.mp hh
      have h5 : (L.drop (L.length - 5)).length = 5 := by
        rw [List.length_drop]
        omega
      rw [this] at h5
      simp at h5
    have hAnl : ∀ e ∈ A, '\n' ∉ e := by
      refine no_newline_numberLines _ _ ?_
      intro l hl
      obtain ⟨x, hx, hxl⟩ := List.mem_map.mp hl
      exact hxl ▸ no_newline_take x 1000 (hnl x (List.take_subset 5 L hx))
    have hBnl : ∀ e ∈ B, '\n' ∉ e := by
      refine no_newline_numberLines _ _ ?_
      intro l hl
      obtain ⟨x, hx, hxl⟩ := List.mem_map.mp hl
      exact hxl ▸ no_newline_take x 1000 (hnl x (List.drop_subset _ L hx))
    have hsplit : splitNl (createContentPreview c 5 5)
        = A ++ truncationMarker (L.length - 10) :: B := by
      rw [hdef, ← joinNl_mid A B _ hAne hBne]
      refine splitNl_joinNl _ (by simp [hAne]) ?_
      intro p hp
      rcases List.mem_append.mp hp with h | h
      · exact hAnl p h
      · rcases List.mem_cons.mp h with h' | h'
        · exact h' ▸ no_newline_truncationMarker _
        · exact hBnl p h'
    constructor
    · rw [hsplit, List.append_assoc]
      rfl
    · rw [hsplit]
      simp only [List.length_append, List.length_cons, hAdef, hBdef,
        numberLines_length, List.length_map, List.length_take, List.length_drop]
      omega

/-! ### The `read_file` tool (fs.ts `createReadFileTool`) -/

/-- Constant `NUM_CHARS_PER_TOKEN` from fs.ts line 73. -/
def NUM_CHARS_PER_TOKEN : Nat := 4

/-- Constant `DEFAULT_READ_LINE_LIMIT` from fs.ts line 79. -/
def DEFAULT_READ_LINE_LIMIT : Nat := 100

/-- The part of `READ_FILE_TRUNCATION_MSG` before the `file_path` slot. -/
def readTruncSeg1 : Str :=
  ("\n\n[Output was truncated due to size limits. The file content is very "
    ++ "large. Consider reformatting the file to make it easier to navigate. "
    ++ "For example, if this is JSON, use execute(command=\x27jq . ").data

/-- The part of `READ_FILE_TRUNCATION_MSG` after the `file_path` slot. -/
def readTruncSeg2 : Str :=
  ("\x27) to pretty-print it with line breaks. For other formats, you can "
    ++ "use appropriate formatting tools to split long lines.]").data

/-- Template `READ_FILE_TRUNCATION_MSG` (fs.ts lines 85-87) with its path slot
substituted. -/
def readFileTruncationMsg (filePath : Str) : Str :=
  readTruncSeg1 ++ filePath ++ readTruncSeg2

/-- The line-limit enforcement step of the read tool: if the backend returned
more than `limit` lines, keep only the first `limit` of them. -/
def readLineLimit (backendResult : Str) (limit : Nat) : Str :=
  let lines := splitNl backendResult
  if limit < lines.length then joinNl (lines.take limit) else backendResult

/-- Translation of the post-backend part of `createReadFileTool`'s handler
(fs.ts lines 434-458): enforce the line limit on the backend result, then, if
an eviction threshold is configured (JS falsiness: `null` and `0` disable it)
and the result reaches `NUM_CHARS_PER_TOKEN ×` threshold characters,
end-truncate it so that result plus appended truncation notice stay under the
cap. -/
def readFileToolRun (backendResult : Str) (filePath : Str) (limit : Nat)
    (toolTokenLimitBeforeEvict : Option Nat) : Str :=
  let result := readLineLimit backendResult limit
  match toolTokenLimitBeforeEvict with
  | none => result
  | some t =>
    if t = 0 then result
    else if NUM_CHARS_PER_TOKEN * t ≤ result.length then
      let truncationMsg := readFileTruncationMsg filePath
      result.take (NUM_CHARS_PER_TOKEN * t - truncationMsg.length) ++ truncationMsg
    else result

theorem numLines_le_splitNl_length (s : Str) : numLines s ≤ (splitNl s).length := by
  unfold numLines
  split
  · omega
  · exact Nat.le_refl _

theorem readLineLimit_numLines (r : Str) (limit : Nat) :
    numLines (readLineLimit r limit) ≤ limit := by
  unfold readLineLimit
  by_cases hlim : limit < (splitNl r).length
  · rw [if_pos hlim]
    by_cases hz : limit = 0
    · subst hz
      rw [List.take_zero]
      simp [joinNl, numLines]
    · have hne : (splitNl r).take limit ≠ [] := by
        intro hh
        have h0 := congrArg List.length hh
        rw [List.length_take, List.length_nil] at h0
        omega
      have hsp : splitNl (joinNl ((splitNl r).take limit)) = (splitNl r).take limit :=
        splitNl_joinNl _ hne
          (fun p hp => mem_splitNl_no_newline r p (List.take_subset _ _ hp))
      calc numLines (joinNl ((splitNl r).take limit))
          ≤ (splitNl (joinNl ((splitNl r).take limit))).length :=
            numLines_le_splitNl_length _
        _ = ((splitNl r).take limit).length := by rw [hsp]
        _ ≤ limit := by rw [List.length_take]; omega
  · rw [if_neg hlim]
    calc numLines r ≤ (splitNl r).length := numLines_le_splitNl_length r
      _ ≤ limit := by omega

/-- C5: the content part returned by `read_file` never exceeds the requested
line limit even if the backend over-returned; when the (nonzero) character cap
of `NUM_CHARS_PER_TOKEN ×` threshold is reached the output is the end-truncated
content with the truncation notice appended, and that notice names the
requested file path. -/
theorem read_file_tool_spec (r path : Str) (limit t : Nat) (ht : t ≠ 0) :
    numLines (readLineLimit r limit) ≤ limit
    ∧ readFileToolRun r path limit (some t)
        = (if NUM_CHARS_PER_TOKEN * t ≤ (readLineLimit r limit).length then
            (readLineLimit r limit).take
                (NUM_CHARS_PER_TOKEN * t - (readFileTruncationMsg path).length)
              ++ readFileTruncationMsg path
          else readLineLimit r limit)
    ∧ (∃ pre post, readFileTruncationMsg path = pre ++ path ++ post) := by
  refine ⟨readLineLimit_numLines r limit, ?_, ⟨readTruncSeg1, readTruncSeg2, rfl⟩⟩
  have h : readFileToolRun r path limit (some t)
      = if t = 0 then readLineLimit r limit
        else if NUM_CHARS_PER_TOKEN * t ≤ (readLineLimit r limit).length then
          (readLineLimit r limit).take
              (NUM_CHARS_PER_TOKEN * t - (readFileTruncationMsg path).length)
            ++ readFileTruncationMsg path
        else readLineLimit r limit := rfl
  rw [h, if_neg ht]

theorem read_file_tool_spec_witness :
    ((20000 : Nat) ≠ 0)
    ∧ (numLines (readLineLimit ['a', '\n', 'b', '\n', 'c'] 2) ≤ 2
      ∧ readFileToolRun ['a', '\n', 'b', '\n', 'c'] ['/', 'f'] 2 (some 20000)
          = (if NUM_CHARS_PER_TOKEN * 20000
                ≤ (readLineLimit ['a', '\n', 'b', '\n', 'c'] 2).length then
              (readLineLimit ['a', '\n', 'b', '\n', 'c'] 2).take
                  (NUM_CHARS_PER_TOKEN * 20000 - (readFileTruncationMsg ['/', 'f']).length)
                ++ readFileTruncationMsg ['/', 'f']
            else readLineLimit ['a', '\n', 'b', '\n', 'c'] 2)
      ∧ (∃ pre post, readFileTruncationMsg ['/', 'f'] = pre ++ ['/', 'f'] ++ post)) :=
  ⟨by decide, read_file_tool_spec ['a', '\n', 'b', '\n', 'c'] ['/', 'f'] 2 20000 (by decide)⟩

/-! ### Eviction of oversized tool results (fs.ts `wrapToolCall`) -/

/-- Constant `TOOLS_EXCLUDED_FROM_EVICTION` from fs.ts lines 59-66. -/
def TOOLS_EXCLUDED_FROM_EVICTION : List Str :=
  ["ls".data, "glob".data, "grep".data, "read_file".data, "edit_file".data,
   "write_file".data]

/-- Modelled from the spec: `sanitizeToolCallId` is imported by fs.ts from
`../backends/utils.js`, whose source is not included here.  The spec (§4.8
step 2, §6) derives a deterministic path segment from a sanitized tool-call
identifier; we model character-wise replacement of every character outside
`[A-Za-z0-9_-]` by an underscore, which is length-preserving. -/
def sanitizeToolCallId (id : Str) : Str :=
  id.map (fun c => if c.isAlphanum ∨ c = '-' ∨ c = '_' then c else '_')

/-- The reserved directory for relocated oversized tool results (§6). -/
def largeToolResultsDir : Str := "/large_tool_results/".data

/-- JS `request.toolCall?.id || msg.tool_call_id`: the request id when present
and truthy (non-empty), the message id otherwise. -/
def effectiveToolCallId (reqId : Option Str) (msgId : Str) : Str :=
  match reqId with
  | some i => if i = [] then msgId else i
  | none => msgId

/-- The part of `TOO_LARGE_TOOL_MSG` before the `tool_call_id` slot. -/
def tooLargeSeg1 : Str :=
  "Tool result too large, the result of this tool call ".data

/-- The part of `TOO_LARGE_TOOL_MSG` between the `tool_call_id` and
`file_path` slots. -/
def tooLargeSeg2 : Str :=
  " was saved in the filesystem at this path: ".data

/-- The part of `TOO_LARGE_TOOL_MSG` between the `file_path` and
`content_sample` slots. -/
def tooLargeSeg3 : Str :=
  ("\nYou can read the result from the filesystem by using the read_file tool, "
    ++ "but make sure to only read part of the result at a time.\nYou can do "
    ++ "this by specifying an offset and limit in the read_file tool call.\nFor "
    ++ "example, to read the first 100 lines, you can use the read_file tool "
    ++ "with offset=0 and limit=100.\n\nHere is a preview showing the head and "
    ++ "tail of the result (lines of the form\n... [N lines truncated] "
    ++ "...\nindicate omitted lines in the middle of the content):\n\n").data

/-- Template `TOO_LARGE_TOOL_MSG` (fs.ts lines 92-101) with its three slots filled. -/
def tooLargeToolMsg (toolCallId filePath contentSample : Str) : Str :=
  tooLargeSeg1 ++ toolCallId ++ tooLargeSeg2 ++ filePath ++ tooLargeSeg3
    ++ contentSample

/-- A `ToolMessage` as far as the eviction wrapper inspects it. -/
structure ToolMsg where
  content : Str
  tool_call_id : Str
  name : Str
deriving DecidableEq

/-- The result shape of `backend.write` consumed by the wrapper. -/
structure WriteResult where
  error : Option Str
  filesUpdate : Option FilesRecordUpdate
deriving DecidableEq

/-- JS truthiness of an optional string (`undefined`/`null` and `""` are
falsy). -/
def jsTruthy (o : Option Str) : Bool :=
  match o with
  | none => false
  | some s => !s.isEmpty

/-- Output of `processToolMessage`: the (possibly replaced) message, the files
update to merge (if any), and — for frame reasoning — the log of backend
writes performed. -/
structure ProcessedMsg where
  message : ToolMsg
  filesUpdate : Option FilesRecordUpdate
  writes : List (Str × Str)
deriving DecidableEq

/-- The deterministic virtual path an oversized result is relocated to. -/
def evictPathOf (reqId : Option Str) (m : ToolMsg) : Str :=
  largeToolResultsDir ++ sanitizeToolCallId (effectiveToolCallId reqId m.tool_call_id)

/-- The replacement (notice + preview) message substituted for an evicted
oversized tool result (`replacementText` / `truncatedMessage` in fs.ts). -/
def evictedMessage (reqToolCallId : Option Str) (msg : ToolMsg) : ToolMsg :=
  { content := tooLargeToolMsg msg.tool_call_id (evictPathOf reqToolCallId msg) (createContentPreview msg.content 5 5),
    tool_call_id := msg.tool_call_id,
    name := msg.name }

/-- Translation of `processToolMessage` (fs.ts lines 853-903): contents whose
length strictly exceeds `threshold × NUM_CHARS_PER_TOKEN` are written to the
derived path; on write error the original message is returned untouched,
otherwise the message is replaced by the notice-plus-preview text and the
write's filesUpdate is passed along. -/
def processToolMessage (write : Str → Str → WriteResult) (reqToolCallId : Option Str)
    (toolTokenLimitBeforeEvict : Nat) (msg : ToolMsg) : ProcessedMsg :=
  if toolTokenLimitBeforeEvict * NUM_CHARS_PER_TOKEN < msg.content.length then
    let evictPath := evictPathOf reqToolCallId msg
    let writeResult := write evictPath msg.content
    if jsTruthy writeResult.error then
      { message := msg, filesUpdate := none, writes := [(evictPath, msg.content)] }
    else
      { message := evictedMessage reqToolCallId msg,
        filesUpdate := writeResult.filesUpdate,
        writes := [(evictPath, msg.content)] }
  else
    { message := msg, filesUpdate := none, writes := [] }

/-- A message inside a `Command` update: a tool message or anything else. -/
inductive UpdateMsg where
  | toolMsg (m : ToolMsg)
  | other (tag : Nat)
deriving DecidableEq

/-- The slice of a `Command`'s update inspected by the wrapper. -/
structure CommandUpdate where
  messages : Option (List UpdateMsg)
  files : Option FilesRecordUpdate
deriving DecidableEq

/-- A tool handler's result: a plain `ToolMessage` or a `Command`. -/
inductive ToolCallResult where
  | msg (m : ToolMsg)
  | cmd (u : CommandUpdate)
deriving DecidableEq

/-- The exclusion test of `wrapToolCall` (`toolName && TOOLS_EXCLUDED…`). -/
def isExcludedTool (toolName : Option Str) : Bool :=
  match toolName with
  | some nm => decide (nm ∈ TOOLS_EXCLUDED_FROM_EVICTION)
  | none => false

/-- Model of JS `Object.assign(m, u)`. -/
def jsAssign {α : Type} (m : List (Str × α)) (u : List (Str × α)) : List (Str × α) :=
  u.foldl (fun acc kv => setKey acc kv.1 kv.2) m

/-- The per-message loop of `wrapToolCall`'s Command branch: process each tool
message, accumulate the files updates (`Object.assign`) and whether any
message was oversized, and log the writes. -/
def processMsgList (write : Str → Str → WriteResult) (reqId : Option Str) (t : Nat) :
    FilesRecordUpdate → List UpdateMsg →
    List UpdateMsg × FilesRecordUpdate × Bool × List (Str × Str)
  | acc, [] => ([], acc, false, [])
  | acc, .toolMsg tm :: rest =>
    let p := processToolMessage write reqId t tm
    let acc' := match p.filesUpdate with
      | some fu => jsAssign acc fu
      | none => acc
    let r := processMsgList write reqId t acc' rest
    (.toolMsg p.message :: r.1, r.2.1, (p.filesUpdate.isSome || r.2.2.1), p.writes ++ r.2.2.2)
  | acc, .other o :: rest =>
    let r := processMsgList write reqId t acc rest
    (.other o :: r.1, r.2.1, r.2.2.1, r.2.2.2)

/-- How `wrapToolCall` repackages a processed plain `ToolMessage`: a produced
files update is returned as a `Command` carrying the update and the message,
otherwise the message alone is returned. -/
def wrapMsgResult (p : ProcessedMsg) : ToolCallResult × List (Str × Str) :=
  match p.filesUpdate with
  | some fu =>
    (.cmd { messages := some [.toolMsg p.message], files := some fu }, p.writes)
  | none => (.msg p.message, p.writes)

/-- Translation of `wrapToolCall` (fs.ts lines 834-964), with the performed
backend writes logged in the second component: eviction disabled (`null` or
`0`) or an excluded tool name passes the handler result through untouched;
otherwise a plain `ToolMessage` is processed (a produced files update turns it
into a `Command`), and a `Command`'s messages are processed one by one with
the accumulated files merged into its update when some message was oversized. -/
def wrapToolCall (write : Str → Str → WriteResult) (toolName : Option Str)
    (toolTokenLimitBeforeEvict : Option Nat) (reqToolCallId : Option Str)
    (result : ToolCallResult) : ToolCallResult × List (Str × Str) :=
  match toolTokenLimitBeforeEvict with
  | none => (result, [])
  | some t =>
    if t = 0 then (result, [])
    else if isExcludedTool toolName then (result, [])
    else
      match result with
      | .msg m => wrapMsgResult (processToolMessage write reqToolCallId t m)
      | .cmd u =>
        match u.messages with
        | none => (.cmd u, [])
        | some msgs =>
          let startFiles := match u.files with
            | some f => f
            | none => []
          let r := processMsgList write reqToolCallId t startFiles msgs
          if r.2.2.1 then
            (.cmd { messages := some r.1, files := some r.2.1 }, r.2.2.2)
          else (.cmd u, r.2.2.2)

/-- Modelled from the spec: `StateBackend` (src/.../backends/state.ts) is not
included in the sources here.  Per spec §4.2 and the data model (§3), its
`write(path, content)` never errors and returns a file update touching exactly
the written path, whose stored `FileData` holds the content's lines; `now`
stands for the write timestamp. -/
def stateBackendWrite (now : Str) (path : Str) (content : Str) : WriteResult :=
  { error := none, filesUpdate := some [(path, some ⟨splitNl content, now, now⟩)] }

theorem processToolMessage_eq (write : Str → Str → WriteResult)
    (reqId : Option Str) (t : Nat) (m : ToolMsg) :
    processToolMessage write reqId t m
      = if t * NUM_CHARS_PER_TOKEN < m.content.length then
          (if jsTruthy (write (evictPathOf reqId m) m.content).error then
            { message := m,
              filesUpdate := none,
              writes := [(evictPathOf reqId m, m.content)] }
          else
            { message := evictedMessage reqId m,
              filesUpdate := (write (evictPathOf reqId m) m.content).filesUpdate,
              writes := [(evictPathOf reqId m, m.content)] })
        else { message := m, filesUpdate := none, writes := [] } := rfl

theorem wrapToolCall_msg_eq (write : Str → Str → WriteResult) (reqId : Option Str)
    (t : Nat) (ht : t ≠ 0) (m : ToolMsg) :
    wrapToolCall write none (some t) reqId (.msg m)
      = wrapMsgResult (processToolMessage write reqId t m) := by
  have h : wrapToolCall write none (some t) reqId (.msg m)
      = if t = 0 then (.msg m, [])
        else if isExcludedTool none then (.msg m, [])
        else wrapMsgResult (processToolMessage write reqId t m) := rfl
  rw [h, if_neg ht, if_neg (by decide : ¬ isExcludedTool none = true)]

/-- C6: a tool call whose name is in the exemption set is passed through
untouched by the eviction wrapper — the handler's result is returned unchanged
and no backend write is performed — whatever the result and threshold are. -/
theorem wrapToolCall_excluded (write : Str → Str → WriteResult)
    (evict : Option Nat) (reqId : Option Str) (result : ToolCallResult) (nm : Str)
    (hmem : nm ∈ TOOLS_EXCLUDED_FROM_EVICTION) :
    wrapToolCall write (some nm) evict reqId result = (result, []) := by
  cases evict with
  | none => rfl
  | some t =>
    have hex : isExcludedTool (some nm) = true := by
      unfold isExcludedTool
      exact decide_eq_true hmem
    have h : wrapToolCall write (some nm) (some t) reqId result
        = if t = 0 then (result, [])
          else if isExcludedTool (some nm) then (result, [])
          else (match result with
            | .msg m => wrapMsgResult (processToolMessage write reqId t m)
            | .cmd u =>
              match u.messages with
              | none => (.cmd u, [])
              | some msgs =>
                let startFiles := match u.files with
                  | some f => f
                  | none => []
                let r := processMsgList write reqId t startFiles msgs
                if r.2.2.1 then
                  (.cmd { messages := some r.1, files := some r.2.1 }, r.2.2.2)
                else (.cmd u, r.2.2.2)) := rfl
    rw [h, hex]
    by_cases hz : t = 0
    · rw [if_pos hz]
    · rw [if_neg hz, if_pos rfl]

theorem wrapToolCall_excluded_witness :
    ("ls".data ∈ TOOLS_EXCLUDED_FROM_EVICTION)
    ∧ wrapToolCall (fun p _ => ⟨none, some [(p, none)]⟩) (some "ls".data)
        (some 20000) none (.msg ⟨['x'], ['i'], "ls".data⟩)
      = ((.msg ⟨['x'], ['i'], "ls".data⟩ : ToolCallResult), []) :=
  ⟨by decide,
   wrapToolCall_excluded (fun p _ => ⟨none, some [(p, none)]⟩) (some 20000) none
     (.msg ⟨['x'], ['i'], "ls".data⟩) "ls".data (by decide)⟩

/-- C7: when the eviction write for an oversized plain tool message errors,
the wrapper returns the original oversized message unchanged — no replacement
notice, no files update; when the write succeeds with a files update, that
update is merged into the outgoing `Command` together with the replacement
message. -/
theorem wrapToolCall_write_fallback (reqId : Option Str) (m : ToolMsg) (t : Nat)
    (ht : t ≠ 0) (hbig : t * NUM_CHARS_PER_TOKEN < m.content.length) :
    (∀ write : Str → Str → WriteResult,
      jsTruthy (write (evictPathOf reqId m) m.content).error = true →
      wrapToolCall write none (some t) reqId (.msg m)
        = (.msg m, [(evictPathOf reqId m, m.content)]))
    ∧ (∀ (write : Str → Str → WriteResult) (fu : FilesRecordUpdate),
      write (evictPathOf reqId m) m.content = ⟨none, some fu⟩ →
      wrapToolCall write none (some t) reqId (.msg m)
        = (.cmd { messages := some [.toolMsg (processToolMessage write reqId t m).message],
                  files := some fu },
           [(evictPathOf reqId m, m.content)])) := by
  constructor
  · intro write herr
    have hp : processToolMessage write reqId t m
        = { message := m,
            filesUpdate := none,
            writes := [(evictPathOf reqId m, m.content)] } := by
      rw [processToolMessage_eq, if_pos hbig, if_pos herr]
    rw [wrapToolCall_msg_eq write reqId t ht m, hp]
    rfl
  · intro write fu hw
    have hp : processToolMessage write reqId t m
        = { message := evictedMessage reqId m,
            filesUpdate := some fu,
            writes := [(evictPathOf reqId m, m.content)] } := by
      rw [processToolMessage_eq, if_pos hbig, hw]
      rfl
    rw [wrapToolCall_msg_eq write reqId t ht m, hp]
    rfl

theorem wrapToolCall_write_fallback_witness :
    ((2 : Nat) ≠ 0 ∧ 2 * NUM_CHARS_PER_TOKEN
        < (⟨"123456789".data, ['i'], ['f']⟩ : ToolMsg).content.length)
    ∧ ((∀ write : Str → Str → WriteResult,
        jsTruthy (write (evictPathOf none ⟨"123456789".data, ['i'], ['f']⟩)
            (⟨"123456789".data, ['i'], ['f']⟩ : ToolMsg).content).error = true →
        wrapToolCall write none (some 2) none
            (.msg ⟨"123456789".data, ['i'], ['f']⟩)
          = (.msg ⟨"123456789".data, ['i'], ['f']⟩,
             [(evictPathOf none ⟨"123456789".data, ['i'], ['f']⟩,
               (⟨"123456789".data, ['i'], ['f']⟩ : ToolMsg).content)]))
      ∧ (∀ (write : Str → Str → WriteResult) (fu : FilesRecordUpdate),
        write (evictPathOf none ⟨"123456789".data, ['i'], ['f']⟩)
            (⟨"123456789".data, ['i'], ['f']⟩ : ToolMsg).content = ⟨none, some fu⟩ →
        wrapToolCall write none (some 2) none
            (.msg ⟨"123456789".data, ['i'], ['f']⟩)
          = (.cmd { messages := some [.toolMsg (processToolMessage write none 2
                      ⟨"123456789".data, ['i'], ['f']⟩).message],
                    files := some fu },
             [(evictPathOf none ⟨"123456789".data, ['i'], ['f']⟩,
               (⟨"123456789".data, ['i'], ['f']⟩ : ToolMsg).content)]))) :=
  ⟨⟨by decide, by decide⟩,
   wrapToolCall_write_fallback none ⟨"123456789".data, ['i'], ['f']⟩ 2
     (by decide) (by decide)⟩

/-- C2 counterexample: a result text of length exactly `20000 × 4` (the claim's
"at least" threshold) is NOT evicted — `processToolMessage` tests strictly
greater, so the message passes through unchanged and nothing is written, even
against a backend whose writes always succeed. -/
theorem processToolMessage_at_threshold_not_evicted :
    (List.replicate 80000 'a').length = 20000 * NUM_CHARS_PER_TOKEN
    ∧ processToolMessage (stateBackendWrite ['t']) (some ['i', 'd']) 20000
        ⟨List.replicate 80000 'a', ['i', 'd'], ['f']⟩
      = ⟨⟨List.replicate 80000 'a', ['i', 'd'], ['f']⟩, none, []⟩ := by
  constructor
  · rw [List.length_replicate]
    norm_num [NUM_CHARS_PER_TOKEN]
  · have h : ¬ (20000 * NUM_CHARS_PER_TOKEN
        < (⟨List.replicate 80000 'a', ['i', 'd'], ['f']⟩ : ToolMsg).content.length) := by
      have : (⟨List.replicate 80000 'a', ['i', 'd'], ['f']⟩ : ToolMsg).content.length
          = 80000 := by
        rw [show (⟨List.replicate 80000 'a', ['i', 'd'], ['f']⟩ : ToolMsg).content
            = List.replicate 80000 'a' from rfl, List.length_replicate]
      rw [this]
      norm_num [NUM_CHARS_PER_TOKEN]
    rw [processToolMessage_eq, if_neg h]

/-! ### Size bound for the replacement notice -/

theorem numberLines_elem_len_le (ls : List Str) (C B : Nat) :
    ∀ (start : Nat), (∀ l ∈ ls, l.length ≤ C) →
    (∀ j, start ≤ j → j < start + ls.length → (natToChars j).length ≤ B) →
    ∀ e ∈ numberLines start ls, e.length ≤ B + 1 + C := by
  induction ls with
  | nil =>
    intro start _ _ e he
    cases he
  | cons l rest ih =>
    intro start hC hB e he
    rcases List.mem_cons.mp he with h | h
    · subst h
      have h1 : (natToChars start).length ≤ B :=
        hB start (Nat.le_refl _) (by simp)
      have h2 : l.length ≤ C := hC l (List.mem_cons_self _ _)
      simp only [List.length_append, List.length_cons]
      omega
    · refine ih (start + 1) (fun x hx => hC x (List.mem_cons_of_mem _ hx))
        (fun j hj1 hj2 => hB j (by omega) ?_) e h
      simp only [List.length_cons] at hj2 ⊢
      omega

theorem createContentPreview_length_le (c : Str) :
    (createContentPreview c 5 5).length
      ≤ 10100 + 6 * (natToChars ((splitNl c).length)).length := by
  have hD1 : 1 ≤ (natToChars ((splitNl c).length)).length :=
    natToChars_len_pos _
  by_cases hle : (splitNl c).length ≤ 5 + 5
  · have hdef : createContentPreview c 5 5
        = joinNl (numberLines 1 ((splitNl c).map (fun l => l.take 1000))) := by
      unfold createContentPreview formatContentWithLineNumbers
      rw [if_pos hle]
    rw [hdef]
    have helem : ∀ e ∈ numberLines 1 ((splitNl c).map (fun l => l.take 1000)),
        e.length ≤ 2 + 1 + 1000 := by
      refine numberLines_elem_len_le _ 1000 2 1 ?_ ?_
      · intro l hl
        obtain ⟨x, _, hxl⟩ := List.mem_map.mp hl
        rw [← hxl, List.length_take]
        omega
      · intro j hj1 hj2
        rw [List.length_map] at hj2
        exact natToChars_len_le j 2 (by omega) (by omega)
    have := joinNl_length_le _ 1003 helem
    rw [numberLines_length, List.length_map] at this
    have hcount : (splitNl c).length ≤ 10 := hle
    omega
  · push_neg at hle
    set L := splitNl c with hL
    have hlen : 10 < L.length := by rw [hL]; exact hle
    set A := numberLines 1 ((L.take 5).map (fun l => l.take 1000)) with hAdef
    set B := numberLines (L.length - 5 + 1)
        ((L.drop (L.length - 5)).map (fun l => l.take 1000)) with hBdef
    have hdef : createContentPreview c 5 5
        = joinNl A ++ '\n' :: truncationMarker (L.length - 10) ++ '\n' :: joinNl B := by
      unfold createContentPreview formatContentWithLineNumbers jsSliceLast
      rw [show splitNl c = L from hL.symm]
      rw [if_neg (by omega : ¬ L.length ≤ 5 + 5)]
      rw [if_neg (by omega : ¬ (5 : Nat) = 0)]
      have : L.length - 5 - 5 = L.length - 10 := by omega
      rw [this]
      simp [hAdef, hBdef, List.append_assoc, List.map_take, List.map_drop]
    have hjA : (joinNl A).length ≤ 5 * 1003 := by
      have helem : ∀ e ∈ A, e.length ≤ 1 + 1 + 1000 := by
        rw [hAdef]
        refine numberLines_elem_len_le _ 1000 1 1 ?_ ?_
        · intro l hl
          obtain ⟨x, _, hxl⟩ := List.mem_map.mp hl
          rw [← hxl, List.length_take]
          omega
        · intro j hj1 hj2
          rw [List.length_map, List.length_take] at hj2
          exact natToChars_len_le j 1 (by omega) (by omega)
      have := joinNl_length_le A 1002 helem
      have hAlen : A.length ≤ 5 := by
        rw [hAdef, numberLines_length, List.length_map, List.length_take]
        omega
      calc (joinNl A).length ≤ A.length * 1003 := this
        _ ≤ 5 * 1003 := Nat.mul_le_mul_right _ hAlen
    have hjB : (joinNl B).length
        ≤ 5 * ((natToChars L.length).length + 1002) := by
      have helem : ∀ e ∈ B, e.length
          ≤ (natToChars L.length).length + 1 + 1000 := by
        rw [hBdef]
        refine numberLines_elem_len_le _ 1000 ((natToChars L.length).length) _ ?_ ?_
        · intro l hl
          obtain ⟨x, _, hxl⟩ := List.mem_map.mp hl
          rw [← hxl, List.length_take]
          omega
        · intro j hj1 hj2
          rw [List.length_map, List.length_drop] at hj2
          exact natToChars_len_mono (by omega)
      have := joinNl_length_le B ((natToChars L.length).length + 1001) helem
      have hBlen : B.length ≤ 5 := by
        rw [hBdef, numberLines_length, List.length_map, List.length_drop]
        omega
      calc (joinNl B).length
          ≤ B.length * ((natToChars L.length).length + 1001 + 1) := this
        _ ≤ 5 * ((natToChars L.length).length + 1001 + 1) :=
            Nat.mul_le_mul_right _ hBlen
    have hmark : (truncationMarker (L.length - 10)).length
        ≤ 26 + (natToChars L.length).length := by
      have hm : truncationMarker (L.length - 10)
          = "... [".data ++ natToChars (L.length - 10)
            ++ " lines truncated] ...".data := rfl
      rw [hm, List.length_append, List.length_append]
      have h1 : ("... [".data).length = 5 := by decide
      have h2 : (" lines truncated] ...".data).length = 21 := by decide
      have h3 : (natToChars (L.length - 10)).length ≤ (natToChars L.length).length :=
        natToChars_len_mono (by omega)
      omega
    rw [hdef]
    have htot : (joinNl A ++ '\n' :: truncationMarker (L.length - 10)
          ++ '\n' :: joinNl B).length
        = (joinNl A).length + 1 + (truncationMarker (L.length - 10)).length
          + 1 + (joinNl B).length := by
      rw [List.length_append, List.length_append, List.length_cons, List.length_cons]
      omega
    rw [htot]
    have hDn : (natToChars ((splitNl c).length)).length
        = (natToChars L.length).length := by rw [hL]
    omega

theorem six_mul_le_pow (d : Nat) (hd : 7 ≤ d) : 6 * d + 12822 ≤ 10 ^ (d - 1) := by
  induction d, hd using Nat.le_induction with
  | base => norm_num
  | succ n hn ih =>
    have hpow : 10 ^ (n + 1 - 1) = 10 * 10 ^ (n - 1) := by
      rw [show n + 1 - 1 = (n - 1) + 1 by omega, pow_succ]
      ring
    rw [hpow]
    omega

/-- C2 (amended): a non-exempt tool result whose text length STRICTLY exceeds
`20000 × 4` characters (ids bounded by 1000 chars, the state backend as the
resolved backend) is relocated: the full original text is written to
`/large_tool_results/<sanitized id>`, the visible message becomes the notice
plus preview and is strictly shorter than the original, and the files update
stores at that path content whose lines re-join byte-identically to the
original result. -/
theorem processToolMessage_evicts (now : Str) (reqId : Option Str) (m : ToolMsg)
    (hlen : 20000 * NUM_CHARS_PER_TOKEN < m.content.length)
    (hmid : m.tool_call_id.length ≤ 1000)
    (hrid : (effectiveToolCallId reqId m.tool_call_id).length ≤ 1000) :
    (processToolMessage (stateBackendWrite now) reqId 20000 m).writes
        = [(evictPathOf reqId m, m.content)]
    ∧ (processToolMessage (stateBackendWrite now) reqId 20000 m).message
        = evictedMessage reqId m
    ∧ (evictedMessage reqId m).content.length < m.content.length
    ∧ ∃ fd : FileData,
        (processToolMessage (stateBackendWrite now) reqId 20000 m).filesUpdate
          = some [(evictPathOf reqId m, some fd)]
        ∧ joinNl fd.content = m.content := by
  have hp : processToolMessage (stateBackendWrite now) reqId 20000 m
      = { message := evictedMessage reqId m,
          filesUpdate := some [(evictPathOf reqId m, some ⟨splitNl m.content, now, now⟩)],
          writes := [(evictPathOf reqId m, m.content)] } := by
    rw [processToolMessage_eq, if_pos hlen]
    rfl
  refine ⟨by rw [hp], by rw [hp], ?_,
    ⟨⟨splitNl m.content, now, now⟩, by rw [hp], joinNl_splitNl m.content⟩⟩
  have hcontent : (evictedMessage reqId m).content.length
      = tooLargeSeg1.length + m.tool_call_id.length + tooLargeSeg2.length
        + (evictPathOf reqId m).length + tooLargeSeg3.length
        + (createContentPreview m.content 5 5).length := by
    show (tooLargeToolMsg m.tool_call_id (evictPathOf reqId m)
      (createContentPreview m.content 5 5)).length = _
    unfold tooLargeToolMsg
    simp only [List.length_append]
  have hpath : (evictPathOf reqId m).length
      = 20 + (effectiveToolCallId reqId m.tool_call_id).length := by
    unfold evictPathOf sanitizeToolCallId
    rw [List.length_append, List.length_map]
    have h20 : largeToolResultsDir.length = 20 := by decide
    omega
  have hsegs : tooLargeSeg1.length + tooLargeSeg2.length + tooLargeSeg3.length
      ≤ 700 := by decide
  have hprev := createContentPreview_length_le m.content
  have hn1 : 1 ≤ (splitNl m.content).length :=
    List.length_pos.mpr (splitNl_ne_nil m.content)
  have hn2 : (splitNl m.content).length ≤ m.content.length + 1 :=
    splitNl_length_le m.content
  have h80 : 20000 * NUM_CHARS_PER_TOKEN = 80000 := by
    norm_num [NUM_CHARS_PER_TOKEN]
  rw [h80] at hlen
  by_cases hD : (natToChars ((splitNl m.content).length)).length ≤ 6
  · omega
  · push_neg at hD
    have hpow : 10 ^ ((natToChars ((splitNl m.content).length)).length - 1)
        ≤ (splitNl m.content).length :=
      pow_le_of_natToChars_len _ hn1
    have hsix := six_mul_le_pow ((natToChars ((splitNl m.content).length)).length)
      (by omega)
    omega

theorem processToolMessage_evicts_witness :
    (20000 * NUM_CHARS_PER_TOKEN
        < (⟨List.replicate 80001 'a', ['i', 'd'], ['f']⟩ : ToolMsg).content.length
      ∧ (⟨List.replicate 80001 'a', ['i', 'd'], ['f']⟩ : ToolMsg).tool_call_id.length ≤ 1000
      ∧ (effectiveToolCallId none
          (⟨List.replicate 80001 'a', ['i', 'd'], ['f']⟩ : ToolMsg).tool_call_id).length ≤ 1000)
    ∧ ((processToolMessage (stateBackendWrite ['t']) none 20000
          ⟨List.replicate 80001 'a', ['i', 'd'], ['f']⟩).writes
        = [(evictPathOf none ⟨List.replicate 80001 'a', ['i', 'd'], ['f']⟩,
            (⟨List.replicate 80001 'a', ['i', 'd'], ['f']⟩ : ToolMsg).content)]
      ∧ (processToolMessage (stateBackendWrite ['t']) none 20000
          ⟨List.replicate 80001 'a', ['i', 'd'], ['f']⟩).message
        = evictedMessage none ⟨List.replicate 80001 'a', ['i', 'd'], ['f']⟩
      ∧ (evictedMessage none ⟨List.replicate 80001 'a', ['i', 'd'], ['f']⟩).content.length
        < (⟨List.replicate 80001 'a', ['i', 'd'], ['f']⟩ : ToolMsg).content.length
      ∧ ∃ fd : FileData,
          (processToolMessage (stateBackendWrite ['t']) none 20000
            ⟨List.replicate 80001 'a', ['i', 'd'], ['f']⟩).filesUpdate
            = some [(evictPathOf none ⟨List.replicate 80001 'a', ['i', 'd'], ['f']⟩, some fd)]
          ∧ joinNl fd.content
            = (⟨List.replicate 80001 'a', ['i', 'd'], ['f']⟩ : ToolMsg).content) :=
  ⟨⟨by
      rw [show (⟨List.replicate 80001 'a', ['i', 'd'], ['f']⟩ : ToolMsg).content = List.replicate 80001 'a' from rfl, List.length_replicate]
      norm_num [NUM_CHARS_PER_TOKEN],
    by decide, by decide⟩,
   processToolMessage_evicts ['t'] none ⟨List.replicate 80001 'a', ['i', 'd'], ['f']⟩
     (by
      rw [show (⟨List.replicate 80001 'a', ['i', 'd'], ['f']⟩ : ToolMsg).content = List.replicate 80001 'a' from rfl, List.length_replicate]
      norm_num [NUM_CHARS_PER_TOKEN])
     (by decide) (by decide)⟩

/-! ### Memory loading (src/libs/deepagents/src/middleware/memory.ts) -/

/-- JS `content.startsWith(prefixStr)`. -/
def strStarts : Str → Str → Bool
  | [], _ => true
  | _ :: _, [] => false
  | p :: ps, c :: cs => p == c && strStarts ps cs

/-- One entry of a `downloadFiles` response. -/
structure DownloadResponse where
  content : Option Str
  error : Option Str

/-- A backend as the memory loader consumes it: `read`, plus the optional
`downloadFiles` bulk API. -/
structure MemBackend where
  read : Str → Str
  downloadFiles : Option (List Str → List DownloadResponse)

/-- The error tag the loader treats as an optional (missing) memory file. -/
def fileNotFound : Str := "file_not_found".data

/-- The message of the error thrown for any other download failure. -/
def downloadFailMsg (path e : Str) : Str :=
  "Failed to download ".data ++ path ++ ": ".data ++ e

/-- Translation of `loadMemoryFromBackend` (memory.ts lines 202-241): without
`downloadFiles` it falls back to `read` and treats every `Error:`-prefixed
result as a missing file; with `downloadFiles` it expects exactly one
response, skips `file_not_found` silently, and raises on any other error. -/
def loadMemoryFromBackend (b : MemBackend) (path : Str) : Except Str (Option Str) :=
  match b.downloadFiles with
  | none =>
    let content := b.read path
    if strStarts "Error:".data content then .ok none
    else .ok (some content)
  | some dl =>
    match dl [path] with
    | [r] =>
      (match r.error with
      | some e =>
        if e = fileNotFound then .ok none
        else .error (downloadFailMsg path e)
      | none =>
        match r.content with
        | some c => .ok (some c)
        | none => .ok none)
    | rs => .error ("Expected 1 response for path ".data ++ path
        ++ ", got ".data ++ natToChars rs.length)

/-- The source loop of the memory middleware's `beforeAgent` (memory.ts lines
284-307): each source is loaded; truthy contents are recorded under the source
path, `null` results contribute nothing, and thrown errors are caught, logged
and skipped. -/
def loadAllMemory (b : MemBackend) (sources : List Str) : List (Str × Str) :=
  sources.foldl (fun contents path =>
    match loadMemoryFromBackend b path with
    | .ok (some content) =>
      if content.isEmpty then contents else setKey contents path content
    | .ok none => contents
    | .error _ => contents) []

/-- C8 counterexample: against a backend without `downloadFiles` whose `read`
reports an error other than file-not-found (`"Error: permission denied"`),
`loadMemoryFromBackend` returns `ok none` — the error is swallowed and the
source silently skipped, not propagated. -/
theorem loadMemory_read_fallback_swallows :
    loadMemoryFromBackend
        ⟨fun _ => "Error: permission denied".data, none⟩ "/AGENTS.md".data
      = .ok none := rfl

theorem loadAllMemory_cons (b : MemBackend) (p : Str) (rest : List Str)
    (h : loadMemoryFromBackend b p = .ok none) :
    loadAllMemory b (p :: rest) = loadAllMemory b rest := by
  unfold loadAllMemory
  rw [List.foldl_cons, h]

/-- C8 (amended): when the backend provides `downloadFiles`, a
`file_not_found` response is skipped silently — the source contributes
nothing and loading continues with the remaining sources — while any other
download error is raised out of `loadMemoryFromBackend` (and then caught,
logged and skipped by `beforeAgent`); when the backend lacks `downloadFiles`,
the `read` fallback treats every `Error:`-prefixed result, not just missing
files, as optional and skips it silently. -/
theorem loadMemoryFromBackend_spec (read0 : Str → Str)
    (dl : List Str → List DownloadResponse) (path : Str) (r : DownloadResponse)
    (hdl : dl [path] = [r]) :
    (r.error = some fileNotFound →
      loadMemoryFromBackend ⟨read0, some dl⟩ path = .ok none
      ∧ ∀ rest, loadAllMemory ⟨read0, some dl⟩ (path :: rest)
          = loadAllMemory ⟨read0, some dl⟩ rest)
    ∧ (∀ e, r.error = some e → e ≠ fileNotFound →
      loadMemoryFromBackend ⟨read0, some dl⟩ path = .error (downloadFailMsg path e))
    ∧ (∀ (rd : Str → Str) (p : Str), strStarts "Error:".data (rd p) = true →
      loadMemoryFromBackend ⟨rd, none⟩ p = .ok none) := by
  have hbase : loadMemoryFromBackend ⟨read0, some dl⟩ path
      = (match dl [path] with
        | [r] =>
          (match r.error with
          | some e =>
            if e = fileNotFound then Except.ok none
            else .error (downloadFailMsg path e)
          | none =>
            match r.content with
            | some c => .ok (some c)
            | none => .ok none)
        | rs => .error ("Expected 1 response for path ".data ++ path
            ++ ", got ".data ++ natToChars rs.length)) := rfl
  have h2 : loadMemoryFromBackend ⟨read0, some dl⟩ path
      = (match r.error with
        | some e =>
          if e = fileNotFound then Except.ok none
          else .error (downloadFailMsg path e)
        | none =>
          match r.content with
          | some c => .ok (some c)
          | none => .ok none) := by
    rw [hbase, hdl]
  refine ⟨?_, ?_, ?_⟩
  · intro herr
    have h1 : loadMemoryFromBackend ⟨read0, some dl⟩ path = .ok none := by
      rw [h2, herr]
      simp
    exact ⟨h1, fun rest => loadAllMemory_cons _ path rest h1⟩
  · intro e herr hne
    rw [h2, herr]
    simp [hne]
  · intro rd p hrd
    have h3 : loadMemoryFromBackend ⟨rd, none⟩ p
        = (if strStarts "Error:".data (rd p) then Except.ok none
          else .ok (some (rd p))) := rfl
    rw [h3, if_pos hrd]

theorem loadMemoryFromBackend_spec_witness :
    ((fun _ : List Str => [(⟨none, some fileNotFound⟩ : DownloadResponse)])
        ["/AGENTS.md".data] = [⟨none, some fileNotFound⟩])
    ∧ (((⟨none, some fileNotFound⟩ : DownloadResponse).error = some fileNotFound →
        loadMemoryFromBackend ⟨fun _ => [], some (fun _ => [⟨none, some fileNotFound⟩])⟩
            "/AGENTS.md".data = .ok none
        ∧ ∀ rest, loadAllMemory
              ⟨fun _ => [], some (fun _ => [⟨none, some fileNotFound⟩])⟩
              ("/AGENTS.md".data :: rest)
            = loadAllMemory ⟨fun _ => [], some (fun _ => [⟨none, some fileNotFound⟩])⟩ rest)
      ∧ (∀ e, (⟨none, some fileNotFound⟩ : DownloadResponse).error = some e →
          e ≠ fileNotFound →
          loadMemoryFromBackend ⟨fun _ => [], some (fun _ => [⟨none, some fileNotFound⟩])⟩
              "/AGENTS.md".data = .error (downloadFailMsg "/AGENTS.md".data e))
      ∧ (∀ (rd : Str → Str) (p : Str), strStarts "Error:".data (rd p) = true →
          loadMemoryFromBackend ⟨rd, none⟩ p = .ok none)) :=
  ⟨rfl,
   loadMemoryFromBackend_spec (fun _ => []) (fun _ => [⟨none, some fileNotFound⟩])
     "/AGENTS.md".data ⟨none, some fileNotFound⟩ rfl⟩

/-! ### Skills loading and the skills-metadata reducer (src/unnamed/part_001) -/

/-- Structure `SkillMetadata` per the skills middleware. -/
structure SkillMetadata where
  name : Str
  description : Str
  path : Str
  license : Option Str
  compatibility : Option Str
  metadata : List (Str × Str)
  allowedTools : List Str
deriving DecidableEq

/-- Translation of the source loop of the skills middleware's `beforeAgent`
(part_001 lines 538-561): the skills of each source, in configured order, are
set into one name-keyed `Map`, so later writes win; `skillsOf` abstracts the
per-source result of `listSkillsFromBackend` (a failing source is caught and
contributes nothing, i.e. `[]`). -/
def loadSkills (skillsOf : Str → List SkillMetadata) (sources : List Str) :
    List (Str × SkillMetadata) :=
  sources.foldl (fun allSkills sourcePath =>
    (skillsOf sourcePath).foldl (fun m sk => setKey m sk.name sk) allSkills) []

/-- The last skill with a given name in a load order, if any. -/
def lastMatch : List SkillMetadata → Str → Option SkillMetadata
  | [], _ => none
  | sk :: rest, n =>
    match lastMatch rest n with
    | some r => some r
    | none => if sk.name = n then some sk else none

theorem lookupKey_skillFold (l : List SkillMetadata) :
    ∀ (m : List (Str × SkillMetadata)) (n : Str),
    lookupKey (l.foldl (fun m sk => setKey m sk.name sk) m) n
      = (match lastMatch l n with
        | some r => some r
        | none => lookupKey m n) := by
  induction l with
  | nil =>
    intro m n
    rfl
  | cons sk rest ih =>
    intro m n
    rw [List.foldl_cons, ih (setKey m sk.name sk) n]
    cases h : lastMatch rest n with
    | some r => simp [lastMatch, h]
    | none =>
      simp only [lastMatch, h]
      rw [lookupKey_setKey]
      by_cases hn : sk.name = n
      · rw [if_pos (hn.symm), if_pos hn]
      · rw [if_neg (fun hh : n = sk.name => hn hh.symm), if_neg hn]

theorem skillFold_flatten (skillsOf : Str → List SkillMetadata) (sources : List Str) :
    ∀ (m : List (Str × SkillMetadata)),
    sources.foldl (fun acc s =>
        (skillsOf s).foldl (fun m sk => setKey m sk.name sk) acc) m
      = ((sources.map skillsOf).flatten).foldl (fun m sk => setKey m sk.name sk) m := by
  induction sources with
  | nil => intro m; rfl
  | cons s rest ih =>
    intro m
    rw [List.foldl_cons, ih, List.map_cons, List.flatten_cons, List.foldl_append]

/-- C9: the registered skill for each name is the LAST one in load order — the
loader folds every source's skills, in configured source order, into one
name-keyed map where later writes win, so on a name collision across sources
the later source's metadata (description included) is the one registered. -/
theorem skills_last_source_wins (skillsOf : Str → List SkillMetadata)
    (sources : List Str) (n : Str) :
    lookupKey (loadSkills skillsOf sources) n
      = lastMatch ((sources.map skillsOf).flatten) n := by
  unfold loadSkills
  rw [skillFold_flatten, lookupKey_skillFold]
  cases h : lastMatch ((sources.map skillsOf).flatten) n with
  | some r => rfl
  | none => rfl

/-- Translation of `skillsMetadataReducer` (part_001 lines 139-160): a missing
or empty update returns current (or `[]`); a missing or empty current returns
the update verbatim; otherwise both are folded into a name-keyed `Map`
(current first, update second, later writes win) whose values are returned. -/
def skillsMetadataReducer (current update : Option (List SkillMetadata)) :
    List SkillMetadata :=
  match update with
  | none => current.getD []
  | some u =>
    if u.isEmpty then current.getD []
    else
      match current with
      | none => u
      | some c =>
        if c.isEmpty then u
        else
          let merged := c.foldl (fun m sk => setKey m sk.name sk) []
          let merged2 := u.foldl (fun m sk => setKey m sk.name sk) merged
          merged2.map Prod.snd

theorem mem_setKey {α : Type} (m : List (Str × α)) (k : Str) (v : α) :
    ∀ e ∈ setKey m k v, e ∈ m ∨ e = (k, v) := by
  induction m with
  | nil =>
    intro e he
    rcases List.mem_singleton.mp he with h
    exact .inr h
  | cons e₀ rest ih =>
    obtain ⟨k₀, v₀⟩ := e₀
    intro e he
    simp only [setKey] at he
    by_cases h0 : k₀ = k
    · rw [if_pos h0] at he
      rcases List.mem_cons.mp he with h | h
      · exact .inr h
      · exact .inl (List.mem_cons_of_mem _ h)
    · rw [if_neg h0] at he
      rcases List.mem_cons.mp he with h | h
      · exact .inl (h ▸ List.mem_cons_self _ _)
      · rcases ih e h with h' | h'
        · exact .inl (List.mem_cons_of_mem _ h')
        · exact .inr h'

theorem skillFold_name_inv (l : List SkillMetadata) :
    ∀ (m : List (Str × SkillMetadata)), (∀ e ∈ m, (e.2 : SkillMetadata).name = e.1) →
    ∀ e ∈ l.foldl (fun m sk => setKey m sk.name sk) m, (e.2 : SkillMetadata).name = e.1 := by
  induction l with
  | nil => intro m h; exact h
  | cons sk rest ih =>
    intro m h
    rw [List.foldl_cons]
    refine ih _ ?_
    intro e he
    rcases mem_setKey m sk.name sk e he with h' | h'
    · exact h e h'
    · rw [h']

theorem skillFold_nodup (l : List SkillMetadata) :
    ∀ (m : List (Str × SkillMetadata)), (keysOf m).Nodup →
    (keysOf (l.foldl (fun m sk => setKey m sk.name sk) m)).Nodup := by
  induction l with
  | nil => intro m h; exact h
  | cons sk rest ih =>
    intro m h
    rw [List.foldl_cons]
    exact ih _ (nodup_keysOf_setKey m sk.name sk h)

theorem map_congr_mem {α β : Type} (l : List α) (f g : α → β)
    (h : ∀ a ∈ l, f a = g a) : l.map f = l.map g := by
  induction l with
  | nil => rfl
  | cons a rest ih =>
    rw [List.map_cons, List.map_cons, h a (List.mem_cons_self _ _),
      ih (fun x hx => h x (List.mem_cons_of_mem _ hx))]

/-- C10: when current is absent or empty and the update is non-empty, the
reducer returns the update list verbatim — no deduplication, so duplicate
names can survive — whereas with both sides non-empty the merged result's
names are duplicate-free (name-keyed map, later entry wins). -/
theorem skillsMetadataReducer_spec (u : List SkillMetadata) (hu : u ≠ []) :
    skillsMetadataReducer none (some u) = u
    ∧ skillsMetadataReducer (some []) (some u) = u
    ∧ ∀ (c : SkillMetadata) (cs : List SkillMetadata),
        ((skillsMetadataReducer (some (c :: cs)) (some u)).map
          (fun sk => sk.name)).Nodup := by
  have hne : u.isEmpty = false := by
    cases u with
    | nil => exact absurd rfl hu
    | cons a l => rfl
  refine ⟨?_, ?_, ?_⟩
  · show (if u.isEmpty then [] else u) = u
    rw [hne]
    rfl
  · show (if u.isEmpty then (some []).getD [] else if ([] : List SkillMetadata).isEmpty then u else _) = u
    rw [hne]
    rfl
  · intro c cs
    have h : skillsMetadataReducer (some (c :: cs)) (some u)
        = (u.foldl (fun m sk => setKey m sk.name sk)
            ((c :: cs).foldl (fun m sk => setKey m sk.name sk) [])).map Prod.snd := by
      show (if u.isEmpty then (some (c :: cs)).getD []
        else if (c :: cs).isEmpty then u
        else (u.foldl (fun m sk => setKey m sk.name sk) ((c :: cs).foldl (fun m sk => setKey m sk.name sk) [])).map Prod.snd) = _
      rw [hne]
      rfl
    rw [h]
    have hnd : (keysOf (u.foldl (fun m sk => setKey m sk.name sk)
        ((c :: cs).foldl (fun m sk => setKey m sk.name sk) []))).Nodup :=
      skillFold_nodup u _ (skillFold_nodup (c :: cs) [] (by simp [keysOf]))
    have hinv : ∀ e ∈ u.foldl (fun m sk => setKey m sk.name sk)
        ((c :: cs).foldl (fun m sk => setKey m sk.name sk) []),
        (e.2 : SkillMetadata).name = e.1 :=
      skillFold_name_inv u _ (skillFold_name_inv (c :: cs) [] (by intro e he; cases he))
    rw [List.map_map]
    have hmap : (u.foldl (fun m sk => setKey m sk.name sk)
          ((c :: cs).foldl (fun m sk => setKey m sk.name sk) [])).map
          ((fun sk => sk.name) ∘ Prod.snd)
        = keysOf (u.foldl (fun m sk => setKey m sk.name sk)
          ((c :: cs).foldl (fun m sk => setKey m sk.name sk) [])) :=
      map_congr_mem _ _ _ (fun e he => hinv e he)
    rw [hmap]
    exact hnd

theorem skillsMetadataReducer_spec_witness :
    (([⟨['a'], ['1'], ['p'], none, none, [], []⟩,
       ⟨['a'], ['2'], ['q'], none, none, [], []⟩] : List SkillMetadata) ≠ []
      ∧ ¬ (([⟨['a'], ['1'], ['p'], none, none, [], []⟩,
            ⟨['a'], ['2'], ['q'], none, none, [], []⟩] : List SkillMetadata).map
          (fun sk => sk.name)).Nodup)
    ∧ (skillsMetadataReducer none
          (some [⟨['a'], ['1'], ['p'], none, none, [], []⟩,
                 ⟨['a'], ['2'], ['q'], none, none, [], []⟩])
        = [⟨['a'], ['1'], ['p'], none, none, [], []⟩,
           ⟨['a'], ['2'], ['q'], none, none, [], []⟩]
      ∧ skillsMetadataReducer (some [])
          (some [⟨['a'], ['1'], ['p'], none, none, [], []⟩,
                 ⟨['a'], ['2'], ['q'], none, none, [], []⟩])
        = [⟨['a'], ['1'], ['p'], none, none, [], []⟩,
           ⟨['a'], ['2'], ['q'], none, none, [], []⟩]
      ∧ ∀ (c : SkillMetadata) (cs : List SkillMetadata),
          ((skillsMetadataReducer (some (c :: cs))
            (some [⟨['a'], ['1'], ['p'], none, none, [], []⟩,
                   ⟨['a'], ['2'], ['q'], none, none, [], []⟩])).map
            (fun sk => sk.name)).Nodup) :=
  ⟨⟨by decide, by decide⟩,
   skillsMetadataReducer_spec
     [⟨['a'], ['1'], ['p'], none, none, [], []⟩,
      ⟨['a'], ['2'], ['q'], none, none, [], []⟩] (by decide)⟩

end DeepAgents
